import Mathlib

/-!
Verification development for the core of the columnar query engine:
the between-composition optimizer rule, the column-between table scan
(dictionary fast path and generic path), the nested-loop join operator,
and the chunked table storage layer.

Shallow embedding conventions:
* `AllTypeVariant` values are modelled over `Int` plus an explicit NULL state;
  the engine dispatches the same comparator logic over all its data types,
  and every claim here is settled on the `Int` instantiation.
* C++ `std::vector` state that is only ever appended to is modelled as Lean
  lists built with `++` / `flatMap` in the same emission order as the loops.
* `uint32_t` arithmetic (ValueID, ChunkID, ChunkOffset) is modelled as `Nat`
  with explicit `% 4294967296` where the source relies on unsigned wraparound.
-/

namespace HyriseModel

/-- PredicateCondition enum from the engine (comparison and between variants).
Only the members used by the modelled components are included. -/
inductive PredicateCondition where
  | equals
  | notEquals
  | lessThan
  | lessThanEquals
  | greaterThan
  | greaterThanEquals
  | betweenInclusive
  | betweenLowerExclusive
  | betweenUpperExclusive
  | betweenExclusive
deriving DecidableEq, Repr

/-- An operand of a BinaryPredicateExpression: an LQPColumnExpression
(identified by its column reference) or a ValueExpression holding a value. -/
inductive Operand where
  | column (c : Nat)
  | value (v : Int)
deriving DecidableEq, Repr

/-- Predicate expressions as seen by the between-composition rule:
binary comparison predicates, AND conjunctions (LogicalExpression with
LogicalOperator::And), between expressions, and all other predicate
expressions (LIKE, IN, OR, IS NULL, ...) kept opaque and identified by a tag.
The opaque tag is interpreted by an environment when evaluating plans. -/
inductive Expression where
  | binaryPred (cond : PredicateCondition) (l r : Operand)
  | andExpr (l r : Expression)
  | betweenExpr (col : Nat) (lo hi : Int) (cond : PredicateCondition)
  | otherExpr (tag : Nat)
deriving DecidableEq, Repr

/-- ColumnBoundaryType from BetweenCompositionRule. -/
inductive ColumnBoundaryType where
  | none
  | lowerBoundaryInclusive
  | lowerBoundaryExclusive
  | upperBoundaryInclusive
  | upperBoundaryExclusive
deriving DecidableEq, Repr

/-- ColumnBoundary from BetweenCompositionRule: normalized column reference,
boundary value and boundary type. When the type is `none` the column/value
fields are unused by the rule (the source stores null pointers there);
the model stores zeros. -/
structure ColumnBoundary where
  column : Nat
  value : Int
  type : ColumnBoundaryType
deriving DecidableEq, Repr

/-- BetweenCompositionRule::_get_boundary: normalizes a binary comparison into
a column boundary, depending on whether the column is the left or the right
operand; any other operand shape or condition yields boundary type `none`. -/
def getBoundary (cond : PredicateCondition) (l r : Operand) : ColumnBoundary :=
  match l, r with
  | Operand.column c, Operand.value v =>
    match cond with
    | PredicateCondition.lessThanEquals => ⟨c, v, ColumnBoundaryType.upperBoundaryInclusive⟩
    | PredicateCondition.greaterThanEquals => ⟨c, v, ColumnBoundaryType.lowerBoundaryInclusive⟩
    | PredicateCondition.lessThan => ⟨c, v, ColumnBoundaryType.upperBoundaryExclusive⟩
    | PredicateCondition.greaterThan => ⟨c, v, ColumnBoundaryType.lowerBoundaryExclusive⟩
    | _ => ⟨c, v, ColumnBoundaryType.none⟩
  | Operand.value v, Operand.column c =>
    match cond with
    | PredicateCondition.greaterThanEquals => ⟨c, v, ColumnBoundaryType.upperBoundaryInclusive⟩
    | PredicateCondition.lessThanEquals => ⟨c, v, ColumnBoundaryType.lowerBoundaryInclusive⟩
    | PredicateCondition.greaterThan => ⟨c, v, ColumnBoundaryType.upperBoundaryExclusive⟩
    | PredicateCondition.lessThan => ⟨c, v, ColumnBoundaryType.lowerBoundaryExclusive⟩
    | _ => ⟨c, v, ColumnBoundaryType.none⟩
  | _, _ => ⟨0, 0, ColumnBoundaryType.none⟩

/-- get_between_predicate_condition from between_composition_rule.cpp. -/
def getBetweenPredicateCondition (leftInclusive rightInclusive : Bool) : PredicateCondition :=
  if leftInclusive && rightInclusive then PredicateCondition.betweenInclusive
  else if leftInclusive && !rightInclusive then PredicateCondition.betweenUpperExclusive
  else if !leftInclusive && rightInclusive then PredicateCondition.betweenLowerExclusive
  else PredicateCondition.betweenExclusive

/-- flatten_logical_expressions specialized to LogicalOperator::And: the list
of non-AND leaves of an AND tree, in left-to-right order. -/
def flattenAnd : Expression → List Expression
  | Expression.andExpr l r => flattenAnd l ++ flattenAnd r
  | e => [e]

/-- Whether an expression is a BinaryPredicateExpression. -/
def isBinaryPred : Expression → Bool
  | Expression.binaryPred _ _ _ => true
  | _ => false

/-- State of the first loop of _replace_predicates: the pass-through
predicate_nodes collected so far and the column_boundaries map. The C++ map
is an unordered_map with unspecified iteration order; the model fixes the
order to first appearance of each column in the chain (each predicate node
is identified by its predicate expression). -/
structure CollectState where
  predicateNodes : List Expression
  columnBoundaries : List (Nat × List ColumnBoundary)
deriving DecidableEq, Repr

/-- Append a boundary to its column's bucket in the column_boundaries map,
creating the bucket at the end on first appearance. -/
def addBoundary (m : List (Nat × List ColumnBoundary)) (b : ColumnBoundary) :
    List (Nat × List ColumnBoundary) :=
  match m with
  | [] => [(b.column, [b])]
  | (c, bs) :: rest =>
    if c = b.column then (c, bs ++ [b]) :: rest else (c, bs) :: addBoundary rest b

/-- One iteration of the first loop of _replace_predicates for the predicate
node `p`: collect its BinaryPredicateExpressions (the expression itself, or
the binary conjuncts of a flattened AND — non-binary conjuncts of an AND are
not collected by the source), push non-binary non-AND predicates through
unchanged, and file each boundary-typed comparison into column_boundaries;
a comparison whose boundary type is `none` re-pushes the whole node. -/
def collectPredicate (st : CollectState) (p : Expression) : CollectState :=
  let expressions : List Expression :=
    match p with
    | Expression.binaryPred _ _ _ => [p]
    | Expression.andExpr _ _ => (flattenAnd p).filter isBinaryPred
    | _ => []
  let st0 : CollectState :=
    match p with
    | Expression.binaryPred _ _ _ => st
    | Expression.andExpr _ _ => st
    | _ => { st with predicateNodes := st.predicateNodes ++ [p] }
  expressions.foldl
    (fun s e =>
      match e with
      | Expression.binaryPred cond l r =>
        let b := getBoundary cond l r
        if b.type = ColumnBoundaryType.none then
          { s with predicateNodes := s.predicateNodes ++ [p] }
        else
          { s with columnBoundaries := addBoundary s.columnBoundaries b }
      | _ => s)
    st0

/-- Best-so-far lower/upper bound state of the reduction loop of
_replace_predicates (`lower_bound_value_expression`,
`upper_bound_value_expression` and the two inclusivity flags). -/
structure BoundState where
  lower : Option Int
  lowerInclusive : Bool
  upper : Option Int
  upperInclusive : Bool
deriving DecidableEq, Repr

/-- One step of the reduction loop: the switch on boundary.type with the
replacement conditions of the source (inclusive lower replaces iff best <
new, exclusive lower iff best ≤ new, inclusive upper iff best > new,
exclusive upper iff best ≥ new; an absent best is always replaced). -/
def stepBoundary (st : BoundState) (b : ColumnBoundary) : BoundState :=
  match b.type with
  | ColumnBoundaryType.upperBoundaryInclusive =>
    match st.upper with
    | none => { st with upper := some b.value, upperInclusive := true }
    | some u =>
      if u > b.value then { st with upper := some b.value, upperInclusive := true } else st
  | ColumnBoundaryType.lowerBoundaryInclusive =>
    match st.lower with
    | none => { st with lower := some b.value, lowerInclusive := true }
    | some l =>
      if l < b.value then { st with lower := some b.value, lowerInclusive := true } else st
  | ColumnBoundaryType.upperBoundaryExclusive =>
    match st.upper with
    | none => { st with upper := some b.value, upperInclusive := false }
    | some u =>
      if u ≥ b.value then { st with upper := some b.value, upperInclusive := false } else st
  | ColumnBoundaryType.lowerBoundaryExclusive =>
    match st.lower with
    | none => { st with lower := some b.value, lowerInclusive := false }
    | some l =>
      if l ≤ b.value then { st with lower := some b.value, lowerInclusive := false } else st
  | ColumnBoundaryType.none => st

/-- The initial BoundState (both value expressions null). -/
def initialBoundState : BoundState := ⟨none, false, none, false⟩

/-- Re-emission of a boundary that could not be composed: the semantically
equal comparison predicate node built by the source (column op value).
The `none` case is unreachable in the source (such boundaries are never
stored in column_boundaries); the model emits an arbitrary comparison. -/
def boundaryToComparison (b : ColumnBoundary) : Expression :=
  match b.type with
  | ColumnBoundaryType.lowerBoundaryInclusive =>
    Expression.binaryPred PredicateCondition.greaterThanEquals (Operand.column b.column) (Operand.value b.value)
  | ColumnBoundaryType.lowerBoundaryExclusive =>
    Expression.binaryPred PredicateCondition.greaterThan (Operand.column b.column) (Operand.value b.value)
  | ColumnBoundaryType.upperBoundaryInclusive =>
    Expression.binaryPred PredicateCondition.lessThanEquals (Operand.column b.column) (Operand.value b.value)
  | ColumnBoundaryType.upperBoundaryExclusive =>
    Expression.binaryPred PredicateCondition.lessThan (Operand.column b.column) (Operand.value b.value)
  | ColumnBoundaryType.none =>
    Expression.binaryPred PredicateCondition.equals (Operand.column b.column) (Operand.value b.value)

/-- One iteration of the second loop of _replace_predicates for one column
of the column_boundaries map: reduce the column's boundaries, emit a between
predicate when both bounds exist, otherwise re-emit every boundary as a
comparison predicate. The accumulator carries (predicate_nodes,
between_nodes). -/
def emitColumn (acc : List Expression × List Expression) (entry : Nat × List ColumnBoundary) :
    List Expression × List Expression :=
  let st := entry.2.foldl stepBoundary initialBoundState
  match st.lower, st.upper with
  | some lo, some hi =>
    (acc.1,
     acc.2 ++ [Expression.betweenExpr entry.1 lo hi
       (getBetweenPredicateCondition st.lowerInclusive st.upperInclusive)])
  | _, _ => (acc.1 ++ entry.2.map boundaryToComparison, acc.2)

/-- BetweenCompositionRule::_replace_predicates on a predicate chain, given
top-down (front = node attached to the chain's outputs, back = node whose
left input is the chain's input). Returns the rebuilt chain in the same
orientation: the source appends between_nodes after predicate_nodes and
re-links the list front-to-back. -/
def replacePredicates (predicates : List Expression) : List Expression :=
  let st := predicates.foldl collectPredicate ⟨[], []⟩
  let pair := st.columnBoundaries.foldl emitColumn (st.predicateNodes, [])
  pair.1 ++ pair.2

/-- Row of a table, as the list of its column values (the rule's plans
compare column values against literals; NULL handling is irrelevant to the
rule itself and rows here are non-NULL). Missing columns read as 0. -/
def Row : Type := List Int
deriving instance DecidableEq for Row

/-- Value of an operand on a row. -/
def evalOperand (row : Row) : Operand → Int
  | Operand.column c => row.getD c 0
  | Operand.value v => v

/-- The comparator for a binary comparison condition. Between conditions
never occur in BinaryPredicateExpressions; they evaluate to false. -/
def compareValues (cond : PredicateCondition) (x y : Int) : Bool :=
  match cond with
  | PredicateCondition.equals => x = y
  | PredicateCondition.notEquals => x ≠ y
  | PredicateCondition.lessThan => x < y
  | PredicateCondition.lessThanEquals => x ≤ y
  | PredicateCondition.greaterThan => x > y
  | PredicateCondition.greaterThanEquals => x ≥ y
  | _ => false

/-- Semantics of a between condition on a value and two bounds. -/
def betweenHolds (cond : PredicateCondition) (x lo hi : Int) : Bool :=
  match cond with
  | PredicateCondition.betweenInclusive => lo ≤ x && x ≤ hi
  | PredicateCondition.betweenLowerExclusive => lo < x && x ≤ hi
  | PredicateCondition.betweenUpperExclusive => lo ≤ x && x < hi
  | PredicateCondition.betweenExclusive => lo < x && x < hi
  | _ => false

/-- Truth of a predicate expression on a row. Opaque predicates are
interpreted by the environment `σ`. -/
def satisfies (sigma : Nat → Row → Bool) (row : Row) : Expression → Bool
  | Expression.binaryPred cond l r => compareValues cond (evalOperand row l) (evalOperand row r)
  | Expression.andExpr l r => satisfies sigma row l && satisfies sigma row r
  | Expression.betweenExpr c lo hi cond => betweenHolds cond (row.getD c 0) lo hi
  | Expression.otherExpr tag => sigma tag row

/-- Executing a predicate chain on a table (list of rows): the rows passing
every predicate of the chain, in input order. -/
def evalChain (sigma : Nat → Row → Bool) (chain : List Expression) (t : List Row) : List Row :=
  t.filter fun row => chain.all (satisfies sigma row)

/-- Predicates that contribute no column boundary and are not AND
conjunctions: such a node is pushed through _replace_predicates unchanged,
exactly once, in chain order. -/
def passThroughOnly : Expression → Bool
  | Expression.binaryPred cond l r => (getBoundary cond l r).type = ColumnBoundaryType.none
  | Expression.andExpr _ _ => false
  | _ => true

/-! ## Column-between table scan (ColumnBetweenTableScanImpl) -/

/-- AllTypeVariant: a value of the scanned column type or NULL. -/
inductive AllTypeVariant where
  | null
  | intValue (v : Int)
deriving DecidableEq, Repr

/-- variant_is_null. -/
def variantIsNull : AllTypeVariant → Bool
  | AllTypeVariant.null => true
  | _ => false

/-- INVALID_VALUE_ID: the maximum of the underlying uint32_t of ValueID. -/
def INVALID_VALUE_ID : Nat := 4294967295

/-- A dictionary segment: the sorted unique dictionary and the attribute
vector of value ids; the code `dictionary.length` denotes NULL. -/
structure DictionarySegment where
  dictionary : List Int
  attributeVector : List Nat
deriving DecidableEq, Repr

/-- unique_values_count of a dictionary segment. -/
def DictionarySegment.uniqueValuesCount (s : DictionarySegment) : Nat := s.dictionary.length

/-- Modelled from the spec: DictionarySegment::lower_bound is not under src/;
per §3 the dictionary is sorted and unique and supports `lower_bound(v)`
returning a ValueID — the id of the first dictionary entry not less than
`v` (the dictionary size when every entry is less than `v`). -/
def DictionarySegment.lowerBound (s : DictionarySegment) (v : Int) : Nat :=
  (s.dictionary.takeWhile (fun d => d < v)).length

/-- Modelled from the spec: DictionarySegment::upper_bound is not under src/;
per §3 it returns the ValueID of the first dictionary entry greater than
`v` (the dictionary size when no entry is greater). -/
def DictionarySegment.upperBound (s : DictionarySegment) (v : Int) : Nat :=
  (s.dictionary.takeWhile (fun d => d ≤ v)).length

/-- Modelled from the spec: is_between_predicate_condition_lower_inclusive is
not under src/; per §4.3 the lower bound is inclusive for BetweenInclusive
and BetweenUpperExclusive. -/
def isLowerInclusive : PredicateCondition → Bool
  | PredicateCondition.betweenInclusive => true
  | PredicateCondition.betweenUpperExclusive => true
  | _ => false

/-- Modelled from the spec: is_between_predicate_condition_upper_inclusive is
not under src/; per §4.3 the upper bound is inclusive for BetweenInclusive
and BetweenLowerExclusive. -/
def isUpperInclusive : PredicateCondition → Bool
  | PredicateCondition.betweenInclusive => true
  | PredicateCondition.betweenLowerExclusive => true
  | _ => false

/-- The offsets iterated by a segment scan: the whole segment in offset
order, or exactly the offsets of the position filter in filter order. -/
def scanOffsets (segmentSize : Nat) (positionFilter : Option (List Nat)) : List Nat :=
  match positionFilter with
  | none => List.range segmentSize
  | some f => f

/-- ColumnBetweenTableScanImpl::_scan_generic_segment on a dictionary-encoded
segment: typed iteration over the segment's positions (value, is-null,
offset); non-null positions are emitted iff the between comparator holds
(_scan_with_iterators with CheckForNull = true). The emitted matches are the
chunk offsets, in iteration order (the chunk id component is constant). -/
def scanGenericSegment (s : DictionarySegment) (lo hi : Int) (cond : PredicateCondition)
    (positionFilter : Option (List Nat)) : List Nat :=
  (scanOffsets s.attributeVector.length positionFilter).filter fun o =>
    if s.attributeVector.getD o 0 = s.dictionary.length then false
    else betweenHolds cond (s.dictionary.getD (s.attributeVector.getD o 0) 0) lo hi

/-- left value id of the dictionary scan path (before shortcut tests). -/
def dictLeftValueId (s : DictionarySegment) (lo : Int) (cond : PredicateCondition) : Nat :=
  if isLowerInclusive cond then s.lowerBound lo else s.upperBound lo

/-- right value id of the dictionary scan path, after replacing
INVALID_VALUE_ID by unique_values_count. -/
def dictRightValueId (s : DictionarySegment) (hi : Int) (cond : PredicateCondition) : Nat :=
  let r := if isUpperInclusive cond then s.upperBound hi else s.lowerBound hi
  if r = INVALID_VALUE_ID then s.uniqueValuesCount else r

/-- ColumnBetweenTableScanImpl::_scan_dictionary_segment: compute the value-id
bounds, take the all-match shortcut (emit every non-NULL position), the
no-match shortcut (emit nothing), or filter the attribute vector with the
unsigned test `(code - left_id) < (right_id - left_id)`; ValueID is a
uint32_t, so both subtractions wrap modulo 4294967296. The range branch
iterates without a NULL check (the NULL code lies outside the range). -/
def scanDictionarySegment (s : DictionarySegment) (lo hi : Int) (cond : PredicateCondition)
    (positionFilter : Option (List Nat)) : List Nat :=
  if dictLeftValueId s lo cond = 0 ∧ dictRightValueId s hi cond = s.uniqueValuesCount then
    (scanOffsets s.attributeVector.length positionFilter).filter fun o =>
      !(s.attributeVector.getD o 0 = s.dictionary.length)
  else if dictLeftValueId s lo cond = INVALID_VALUE_ID ∨
      dictLeftValueId s lo cond ≥ s.uniqueValuesCount ∨
      dictLeftValueId s lo cond ≥ dictRightValueId s hi cond then
    []
  else
    (scanOffsets s.attributeVector.length positionFilter).filter fun o =>
      ((s.attributeVector.getD o 0) + 4294967296 - dictLeftValueId s lo cond) % 4294967296 <
        (dictRightValueId s hi cond + 4294967296 - dictLeftValueId s lo cond) % 4294967296

/-- A non-reference segment handed to the scan: a value segment (typed values
with NULLs) or a dictionary segment. -/
inductive Segment where
  | value (vals : List (Option Int))
  | dict (s : DictionarySegment)
deriving DecidableEq, Repr

/-- ColumnBetweenTableScanImpl::_scan_generic_segment on a value segment. -/
def scanGenericValueSegment (vals : List (Option Int)) (lo hi : Int)
    (cond : PredicateCondition) (positionFilter : Option (List Nat)) : List Nat :=
  (scanOffsets vals.length positionFilter).filter fun o =>
    match vals.getD o none with
    | none => false
    | some x => betweenHolds cond x lo hi

/-- ColumnBetweenTableScanImpl::_scan_non_reference_segment: the NULL early
out (a NULL scan bound yields an empty result), then dispatch to the
dictionary-optimized or the generic implementation. -/
def scanNonReferenceSegment (seg : Segment) (lo hi : AllTypeVariant)
    (cond : PredicateCondition) (positionFilter : Option (List Nat)) : List Nat :=
  if variantIsNull lo || variantIsNull hi then []
  else
    match seg, lo, hi with
    | Segment.dict s, AllTypeVariant.intValue l, AllTypeVariant.intValue h =>
      scanDictionarySegment s l h cond positionFilter
    | Segment.value vs, AllTypeVariant.intValue l, AllTypeVariant.intValue h =>
      scanGenericValueSegment vs l h cond positionFilter
    | _, _, _ => []

/-- Whether the segment's value at an offset is NULL (out-of-range offsets of
a value segment read as non-NULL; they can never be emitted). -/
def segmentIsNullAt : Segment → Nat → Bool
  | Segment.value vs, o => vs.getD o (some 0) = none
  | Segment.dict s, o => s.attributeVector.getD o 0 = s.dictionary.length

/-- Well-formedness of a dictionary segment: sorted unique dictionary, all
attribute codes at most the dictionary size (the NULL code), and the
dictionary small enough that a valid ValueID never collides with
INVALID_VALUE_ID. -/
def DictionarySegment.WellFormed (s : DictionarySegment) : Prop :=
  s.dictionary.Sorted (· < ·) ∧
  (∀ c ∈ s.attributeVector, c ≤ s.dictionary.length) ∧
  s.dictionary.length < INVALID_VALUE_ID

/-- Whether a predicate condition is one of the four between variants the
scan implementation is built for. -/
def isBetweenCondition : PredicateCondition → Bool
  | PredicateCondition.betweenInclusive => true
  | PredicateCondition.betweenLowerExclusive => true
  | PredicateCondition.betweenUpperExclusive => true
  | PredicateCondition.betweenExclusive => true
  | _ => false

/-- Size sanity of a scanned segment (the dictionary fits in ValueID). -/
def Segment.SizeOk : Segment → Prop
  | Segment.value _ => True
  | Segment.dict s => s.dictionary.length < INVALID_VALUE_ID

/-! ## Nested-loop join (JoinNestedLoop) -/

/-- RowID: chunk id and chunk offset, both uint32_t handles. -/
structure RowID where
  chunkId : Nat
  chunkOffset : Nat
deriving DecidableEq, Repr

/-- Modelled from the spec: NULL_ROW_ID is defined in types.hpp, which is not
under src/; per §3 it is the distinguished RowID sentinel, built from the
invalid (all-ones uint32_t) chunk id and chunk offset. -/
def NULL_ROW_ID : RowID := ⟨4294967295, 4294967295⟩

/-- Modelled from the spec: RowID::is_null is defined in types.hpp, which is
not under src/; it tests for the invalid chunk offset used by the
NULL_ROW_ID sentinel. -/
def RowID.isNull (r : RowID) : Bool := r.chunkOffset = 4294967295

/-- JoinMode enum. -/
inductive JoinMode where
  | inner
  | left
  | right
  | outer
  | cross
  | semi
  | anti
deriving DecidableEq, Repr

/-- Modelled from the spec: flip_predicate_condition is not under src/; per
§4.4 it exchanges `<` with `>` and `≤` with `≥` and leaves `=` and `≠`
unchanged. -/
def flipPredicateCondition : PredicateCondition → PredicateCondition
  | PredicateCondition.lessThan => PredicateCondition.greaterThan
  | PredicateCondition.greaterThan => PredicateCondition.lessThan
  | PredicateCondition.lessThanEquals => PredicateCondition.greaterThanEquals
  | PredicateCondition.greaterThanEquals => PredicateCondition.lessThanEquals
  | c => c

/-- is_outer_join of JoinNestedLoop::_on_execute: the modes that track and
pad unmatched left rows (Right runs as Left on the swapped inputs). -/
def isOuterJoinMode : JoinMode → Bool
  | JoinMode.left => true
  | JoinMode.right => true
  | JoinMode.outer => true
  | _ => false

/-- A join input chunk's segment for the join column: typed values with
NULLs. A table side of the join is a list of such segments, one per chunk. -/
def JoinChunk : Type := List (Option Int)
deriving instance DecidableEq for JoinChunk

/-- One iteration of the inner loop of join_two_typed_segments: skip a NULL
right position, evaluate the comparator, and emit the offset pair of the
match. -/
def innerLoopStep (cond : PredicateCondition) (lv : Int) (rs : JoinChunk)
    (lo ro : Nat) : Option (Nat × Nat) :=
  match rs.getD ro none with
  | none => none
  | some rv => if compareValues cond lv rv then some (lo, ro) else none

/-- join_two_typed_segments: the nested loops over one left and one right
segment. The outer loop walks the left iterator, the inner loop the right
iterator, both in offset order; NULL positions on either side are skipped
and the remaining pairs are emitted in loop order whenever the comparator
holds. process_match appends one entry to each position list per match, so
the model emits the (left offset, right offset) pairs of the matches. -/
def chunkPairMatches (cond : PredicateCondition) (ls rs : JoinChunk) : List (Nat × Nat) :=
  (List.range ls.length).flatMap fun lo =>
    match ls.getD lo none with
    | none => []
    | some lv => (List.range rs.length).filterMap (innerLoopStep cond lv rs lo)

/-- Whether a left offset of chunk `ls` matched against any right chunk:
process_match sets left_matches[offset] exactly for the emitted pairs, so
the flag equals membership of the offset among the matches. -/
def leftOffsetMatched (cond : PredicateCondition) (ls : JoinChunk) (rt : List JoinChunk)
    (lo : Nat) : Bool :=
  rt.any fun rs => (chunkPairMatches cond ls rs).any fun p => p.1 = lo

/-- The unmatched-left padding rows emitted after all right chunks were
scanned for left chunk `i`: one (row, NULL_ROW_ID) pair per unmatched left
offset, in offset order. -/
def leftPadRows (cond : PredicateCondition) (ls : JoinChunk) (rt : List JoinChunk)
    (i : Nat) : List (RowID × RowID) :=
  (List.range ls.length).filterMap fun lo =>
    if leftOffsetMatched cond ls rt lo then none
    else some (RowID.mk i lo, NULL_ROW_ID)

/-- Whether a right offset of right chunk `rs` matched against any left
chunk: right_matches bits are set by process_match exactly for emitted
pairs (they are only read for mode Outer, which also tracks them). -/
def rightOffsetMatched (cond : PredicateCondition) (lt : List JoinChunk) (rs : JoinChunk)
    (ro : Nat) : Bool :=
  lt.any fun ls => (chunkPairMatches cond ls rs).any fun p => p.2 = ro

/-- The left input actually iterated by _on_execute (the swap for Right). -/
def joinLeftInput (mode : JoinMode) (leftIn rightIn : List JoinChunk) : List JoinChunk :=
  if mode = JoinMode.right then rightIn else leftIn

/-- The right input actually iterated by _on_execute (the swap for Right). -/
def joinRightInput (mode : JoinMode) (leftIn rightIn : List JoinChunk) : List JoinChunk :=
  if mode = JoinMode.right then leftIn else rightIn

/-- The predicate condition actually evaluated by _on_execute
(maybe_flipped_predicate_condition). -/
def joinCondition (mode : JoinMode) (cond : PredicateCondition) : PredicateCondition :=
  if mode = JoinMode.right then flipPredicateCondition cond else cond

/-- The matched rows emitted while scanning all right chunks for left chunk
`i`: for each right chunk `j` in order, the chunk-pair matches in loop
order, as RowID pairs. -/
def joinMatchedRows (c : PredicateCondition) (lt rt : List JoinChunk) (i : Nat) :
    List (RowID × RowID) :=
  (List.range rt.length).flatMap fun j =>
    (chunkPairMatches c (lt.getD i []) (rt.getD j [])).map fun p =>
      (RowID.mk i p.1, RowID.mk j p.2)

/-- All rows emitted for left chunk `i`: the matches, followed (for the
outer-ish modes that track left matches) by the unmatched-left padding. -/
def joinChunkRows (mode : JoinMode) (c : PredicateCondition) (lt rt : List JoinChunk)
    (i : Nat) : List (RowID × RowID) :=
  if isOuterJoinMode mode then
    joinMatchedRows c lt rt i ++ leftPadRows c (lt.getD i []) rt i
  else joinMatchedRows c lt rt i

/-- The unmatched-right padding emitted after all left chunks, for mode
Outer only: per right chunk in order, one (NULL_ROW_ID, row) pair per
unmatched right offset. -/
def joinRightPadRows (mode : JoinMode) (c : PredicateCondition) (lt rt : List JoinChunk) :
    List (RowID × RowID) :=
  if mode = JoinMode.outer then
    (List.range rt.length).flatMap fun j =>
      (List.range (rt.getD j []).length).filterMap fun ro =>
        if rightOffsetMatched c lt (rt.getD j []) ro then none
        else some (NULL_ROW_ID, RowID.mk j ro)
  else []

/-- JoinNestedLoop::_on_execute position lists. pos_list_left and
pos_list_right grow in lockstep (every append site pushes one entry to
each), so the model builds the zipped list of (left RowID, right RowID)
entries, in emission order: for each left chunk, for each right chunk, the
matches of the chunk pair; then, for outer-ish modes, the unmatched-left
padding of that left chunk; finally, for mode Outer, the unmatched-right
padding of every right chunk. The inputs and the condition are first
normalized for mode Right (swap and flip). -/
def joinPosLists (mode : JoinMode) (cond : PredicateCondition)
    (leftIn rightIn : List JoinChunk) : List (RowID × RowID) :=
  (List.range (joinLeftInput mode leftIn rightIn).length).flatMap
      (joinChunkRows mode (joinCondition mode cond) (joinLeftInput mode leftIn rightIn)
        (joinRightInput mode leftIn rightIn)) ++
    joinRightPadRows mode (joinCondition mode cond) (joinLeftInput mode leftIn rightIn)
      (joinRightInput mode leftIn rightIn)

/-- An output entry belonging to a comparator match (no NULL padding on
either side). -/
def matchedEntry (p : RowID × RowID) : Bool :=
  !(p.1 = NULL_ROW_ID) && !(p.2 = NULL_ROW_ID)

/-- Strict lexicographic order on quadruples of naturals. -/
def lex4Lt : Nat × Nat × Nat × Nat → Nat × Nat × Nat × Nat → Prop :=
  fun a b =>
    a.1 < b.1 ∨ (a.1 = b.1 ∧ (a.2.1 < b.2.1 ∨ (a.2.1 = b.2.1 ∧
      (a.2.2.1 < b.2.2.1 ∨ (a.2.2.1 = b.2.2.1 ∧ a.2.2.2 < b.2.2.2)))))

instance : DecidableRel lex4Lt := fun a b => by
  unfold lex4Lt; infer_instance

/-- Non-strict lexicographic order on quadruples of naturals. -/
def lex4Le (a b : Nat × Nat × Nat × Nat) : Prop := lex4Lt a b ∨ a = b

instance : DecidableRel lex4Le := fun a b => by
  unfold lex4Le; infer_instance

/-- The key order the claim asserts for matched output entries:
(left chunk id, left offset, right chunk id, right offset). -/
def claimedKey (p : RowID × RowID) : Nat × Nat × Nat × Nat :=
  (p.1.chunkId, p.1.chunkOffset, p.2.chunkId, p.2.chunkOffset)

/-- The key order the code actually emits matched entries in:
(left chunk id, right chunk id, left offset, right offset). -/
def actualKey (p : RowID × RowID) : Nat × Nat × Nat × Nat :=
  (p.1.chunkId, p.2.chunkId, p.1.chunkOffset, p.2.chunkOffset)

/-- Bounds under which real RowIDs are distinguishable from NULL_ROW_ID:
chunk counts and chunk sizes fit in a uint32_t without reaching the
all-ones sentinel (they do in the engine, where these are uint32 handles).
-/
def JoinSizesOk (lt rt : List JoinChunk) : Prop :=
  lt.length ≤ 4294967295 ∧ rt.length ≤ 4294967295 ∧
  (∀ ls ∈ lt, ls.length ≤ 4294967295) ∧ (∀ rs ∈ rt, rs.length ≤ 4294967295)

/-! ## Table storage (Table) -/

/-- TableType from the storage layer. -/
inductive TableType where
  | data
  | references
deriving DecidableEq, Repr

/-- TableColumnDefinition: name, data type (opaque here) and nullability. -/
structure ColumnDefinition where
  name : String
  dataType : Nat
  nullable : Bool
deriving DecidableEq, Repr

/-- A table row as appended through Table::append. -/
def TableRow : Type := List AllTypeVariant
deriving instance DecidableEq for TableRow

/-- A Table: column definitions, type, max_chunk_size and the append-only
chunk sequence. Modelled from the spec where Chunk is concerned (chunk.hpp
is not under src/): per §3 a chunk is a fixed-width slice of rows across
all columns, filled by append(row); the model stores a chunk as its list of
rows, whose length is the chunk's size(). -/
structure StoreTable where
  columnDefinitions : List ColumnDefinition
  tableType : TableType
  maxChunkSize : Nat
  chunks : List (List TableRow)
deriving DecidableEq

/-- The Table constructor (chunkless; asserts max_chunk_size > 0, which
theorems carry as a hypothesis). -/
def mkTable (defs : List ColumnDefinition) (ttype : TableType) (maxChunkSize : Nat) :
    StoreTable :=
  ⟨defs, ttype, maxChunkSize, []⟩

/-- Table::append_chunk: appends the given chunk contents as a new chunk
(of whatever size the caller supplies). -/
def StoreTable.appendChunk (t : StoreTable) (rows : List TableRow) : StoreTable :=
  { t with chunks := t.chunks ++ [rows] }

/-- Table::append_mutable_chunk: appends a fresh empty chunk. -/
def StoreTable.appendMutableChunk (t : StoreTable) : StoreTable :=
  t.appendChunk []

/-- Table::append: open a new mutable chunk when there is none or the last
one is full, then append the row to the last chunk. -/
def StoreTable.append (t : StoreTable) (row : TableRow) : StoreTable :=
  let t1 :=
    if t.chunks.isEmpty || decide ((t.chunks.getLastD []).length ≥ t.maxChunkSize) then
      t.appendMutableChunk
    else t
  { t1 with chunks := t1.chunks.dropLast ++ [t1.chunks.getLastD [] ++ [row]] }

/-- Table::row_count: sum of the chunk sizes, accumulated over the chunks. -/
def StoreTable.rowCount (t : StoreTable) : Nat :=
  t.chunks.foldl (fun acc c => acc + c.length) 0

/-- One call of the public chunk-building Table API. -/
inductive TableOp where
  | appendRow (row : TableRow)
  | appendMutableChunk
  | appendChunk (rows : List TableRow)
deriving DecidableEq

/-- Apply one public API call to a table. -/
def applyTableOp (t : StoreTable) (op : TableOp) : StoreTable :=
  match op with
  | TableOp.appendRow row => t.append row
  | TableOp.appendMutableChunk => t.appendMutableChunk
  | TableOp.appendChunk rows => t.appendChunk rows

/-- A table built through the public API: constructor followed by a sequence
of calls. -/
def buildTable (defs : List ColumnDefinition) (ttype : TableType) (maxChunkSize : Nat)
    (ops : List TableOp) : StoreTable :=
  ops.foldl applyTableOp (mkTable defs ttype maxChunkSize)

/-- The invariant claimed for every chunk but the last: exactly
max_chunk_size rows. -/
def chunksFullButLast (t : StoreTable) : Prop :=
  ∀ c ∈ t.chunks.dropLast, c.length = t.maxChunkSize

/-- The inductive invariant maintained by Table::append: all chunks but the
last are full, and no chunk exceeds max_chunk_size. -/
def AppendInv (t : StoreTable) : Prop :=
  chunksFullButLast t ∧ ∀ c ∈ t.chunks, c.length ≤ t.maxChunkSize

/-! ## Join output writing (JoinNestedLoop::_write_output_chunks) -/

/-- A reference segment of a References input table: referenced table
(a handle), referenced column id and shared position list. -/
structure RefSegment where
  referencedTable : Nat
  referencedColumnId : Nat
  posList : List RowID
deriving DecidableEq, Repr

/-- A join input table as seen by _write_output_chunks: its column
definitions, its type, and (when it is a References table) per chunk one
reference segment per column. For a Data input the chunk contents are
irrelevant to output writing and are left empty. -/
structure JoinInputTable where
  columnDefinitions : List ColumnDefinition
  tableType : TableType
  chunks : List (List RefSegment)
deriving DecidableEq, Repr

/-- What an emitted output reference segment references: an existing table
(by handle), a freshly created dummy Data table built from
Table::create_dummy_table(column_definitions), or the Data input table
itself. -/
inductive OutputReferent where
  | table (id : Nat)
  | dummyTable (defs : List ColumnDefinition)
  | inputTable
deriving DecidableEq, Repr

/-- An output reference segment. -/
structure OutputSegment where
  referent : OutputReferent
  referencedColumnId : Nat
  posList : List RowID
deriving DecidableEq, Repr

/-- The reference segment of a References input at (chunk, column). -/
def segmentAt (t : JoinInputTable) (chunkId columnId : Nat) : RefSegment :=
  (t.chunks.getD chunkId []).getD columnId ⟨0, 0, []⟩

/-- JoinNestedLoop::_write_output_chunks for one input side: per column,
for a References input with chunks dereference the join's position list
through the input's position lists (propagating rows that are null), and
reference the chunk-0 segment's referenced table; for a chunkless
References input reference a fresh dummy Data table with the input's
column definitions, keeping the position list as is; for a Data input
reference the input table itself. -/
def writeOutputChunks (t : JoinInputTable) (posList : List RowID) : List OutputSegment :=
  (List.range t.columnDefinitions.length).map fun columnId =>
    if t.tableType = TableType.references then
      if 0 < t.chunks.length then
        let newPosList := posList.map fun row =>
          if row.isNull then NULL_ROW_ID
          else (segmentAt t row.chunkId columnId).posList.getD row.chunkOffset NULL_ROW_ID
        ⟨OutputReferent.table (segmentAt t 0 columnId).referencedTable,
         (segmentAt t 0 columnId).referencedColumnId, newPosList⟩
      else
        ⟨OutputReferent.dummyTable t.columnDefinitions, columnId, posList⟩
    else
      ⟨OutputReferent.inputTable, columnId, posList⟩

/-- Spec-side definition, following §4.6 of the spec word for word, for
comparison with the source-side writeOutputChunks: for every RowID in the
new position list, dereference through the input's position list to obtain
the root RowID; propagate NULL_ROW_ID unchanged. -/
def specFlattenPosList (t : JoinInputTable) (columnId : Nat) (posList : List RowID) :
    List RowID :=
  posList.map fun r =>
    if r = NULL_ROW_ID then NULL_ROW_ID
    else (segmentAt t r.chunkId columnId).posList.getD r.chunkOffset NULL_ROW_ID

/-! ## Concrete instances used by witnesses and counterexamples -/

/-- An opaque-predicate environment rejecting every row (a LIKE that no row
of the test table satisfies). -/
def sigmaFalse : Nat → Row → Bool := fun _ _ => false

/-- A single predicate node whose AND mixes a composable comparison with a
non-comparison conjunct (for example `col0 >= 5 AND col1 LIKE ...`). -/
def chainDroppedConjunct : List Expression :=
  [Expression.andExpr
    (Expression.binaryPred PredicateCondition.greaterThanEquals (Operand.column 0) (Operand.value 5))
    (Expression.otherExpr 0)]

/-- A single predicate node whose AND contains no binary comparison
conjunct at all (for example `col0 LIKE ... AND col1 LIKE ...`). -/
def chainAndNoComparisons : List Expression :=
  [Expression.andExpr (Expression.otherExpr 0) (Expression.otherExpr 1)]

/-- A chain mixing a one-sided bound on one column with a composable pair
on another column. -/
def chainOneSidedPlusPair : List Expression :=
  [ Expression.binaryPred PredicateCondition.greaterThanEquals (Operand.column 0) (Operand.value 5),
    Expression.binaryPred PredicateCondition.greaterThanEquals (Operand.column 1) (Operand.value 3),
    Expression.binaryPred PredicateCondition.lessThanEquals (Operand.column 1) (Operand.value 9) ]

/-- A chain that composes completely into one between-predicate. -/
def chainTwoSidedPair : List Expression :=
  [ Expression.binaryPred PredicateCondition.greaterThanEquals (Operand.column 0) (Operand.value 3),
    Expression.binaryPred PredicateCondition.lessThanEquals (Operand.column 0) (Operand.value 9) ]

/-- Two append_chunk calls delivering under-full chunks. -/
def underfullChunkOps : List TableOp :=
  [ TableOp.appendChunk [[AllTypeVariant.intValue 1]],
    TableOp.appendChunk [[AllTypeVariant.intValue 2]] ]

/-- A concrete dictionary segment: dictionary [1, 2, 3], attribute codes
[0, 1, 2, 0, 3] (the last code is the NULL code). -/
def dictSegCE : DictionarySegment := ⟨[1, 2, 3], [0, 1, 2, 0, 3]⟩

/-- A References join input with one chunk and one column, whose reference
segment points at table handle 7. -/
def refInputCE : JoinInputTable :=
  ⟨[⟨"a", 0, false⟩], TableType.references, [[⟨7, 0, [⟨0, 0⟩, ⟨0, 1⟩]⟩]]⟩

/-- A join position list with one real entry and one NULL entry. -/
def posListCE : List RowID := [⟨0, 1⟩, NULL_ROW_ID]

/-- Left join input with one chunk of two rows. -/
def joinLeftCE : List JoinChunk := [[some 1, some 2]]

/-- Right join input with two chunks of one row each. -/
def joinRightCE : List JoinChunk := [[some 1], [some 2]]

/-! # Theorems -/

/-! ## Between-composition rule: helper lemmas -/

/-- A pass-through-only predicate moves through the collection loop as a
single pass-through node and files no boundary. -/
theorem collectPredicate_passThrough (st : CollectState) (p : Expression)
    (h : passThroughOnly p = true) :
    collectPredicate st p = ⟨st.predicateNodes ++ [p], st.columnBoundaries⟩ := by
  cases p with
  | binaryPred cond l r =>
    simp only [passThroughOnly, decide_eq_true_eq] at h
    simp [collectPredicate, h]
  | andExpr l r => simp [passThroughOnly] at h
  | betweenExpr c lo hi cond => simp [collectPredicate]
  | otherExpr tag => simp [collectPredicate]

/-- Folding the collection loop over a pass-through-only chain appends the
chain to the collected nodes and files no boundary. -/
theorem foldl_collect_passThrough (chain : List Expression) :
    ∀ acc : List Expression, (∀ p ∈ chain, passThroughOnly p = true) →
      chain.foldl collectPredicate ⟨acc, []⟩ = ⟨acc ++ chain, []⟩ := by
  induction chain with
  | nil => intro acc _; simp
  | cons p rest ih =>
    intro acc h
    have hp : passThroughOnly p = true := h p (List.mem_cons_self p rest)
    have hrest : ∀ q ∈ rest, passThroughOnly q = true :=
      fun q hq => h q (List.mem_cons_of_mem p hq)
    simp only [List.foldl_cons, collectPredicate_passThrough ⟨acc, []⟩ p hp]
    simpa using ih (acc ++ [p]) hrest

/-- _replace_predicates leaves a pass-through-only chain unchanged. -/
theorem replacePredicates_passThrough (chain : List Expression)
    (h : ∀ p ∈ chain, passThroughOnly p = true) :
    replacePredicates chain = chain := by
  unfold replacePredicates
  rw [foldl_collect_passThrough chain [] h]
  simp

/-! ## Claim C1 -/

/-- C1: the predicate-composition rule is NOT semantically invariant, because
a conjunct of a flattened AND expression that is not a binary comparison is
silently dropped, not re-emitted. On the chain holding the single predicate
`col0 >= 5 AND (opaque predicate 0)` and the table with the single row
`[10]`, under an environment where the opaque predicate rejects every row,
the original plan returns no row while the rewritten plan (which reduces to
`col0 >= 5` alone) returns the row: the multisets of result rows differ, so
the rewrite changed the query's semantics. -/
theorem between_rule_drops_and_conjunct :
    evalChain sigmaFalse chainDroppedConjunct [[10]] = [] ∧
      evalChain sigmaFalse (replacePredicates chainDroppedConjunct) [[10]] = [[10]] := by
  constructor <;> rfl

/-! ## Claim C2 -/

/-- C2: the boundary-reduction loop of _replace_predicates replaces the
stored best lower bound by a LowerInclusive candidate iff best < new and by
a LowerExclusive candidate iff best ≤ new, replaces the stored best upper
bound by an UpperInclusive candidate iff best > new and by an
UpperExclusive candidate iff best ≥ new (ties flip the retained bound to
exclusive); and when both a lower and an upper bound survive the reduction,
the emitted between-predicate carries the condition matching the final
inclusivity pair, via get_between_predicate_condition. -/
theorem boundary_reduction_replacement (st : BoundState) (b : ColumnBoundary) (l u : Int)
    (hl : st.lower = some l) (hu : st.upper = some u) :
    (b.type = ColumnBoundaryType.lowerBoundaryInclusive →
      stepBoundary st b =
        if l < b.value then { st with lower := some b.value, lowerInclusive := true } else st) ∧
    (b.type = ColumnBoundaryType.lowerBoundaryExclusive →
      stepBoundary st b =
        if l ≤ b.value then { st with lower := some b.value, lowerInclusive := false } else st) ∧
    (b.type = ColumnBoundaryType.upperBoundaryInclusive →
      stepBoundary st b =
        if u > b.value then { st with upper := some b.value, upperInclusive := true } else st) ∧
    (b.type = ColumnBoundaryType.upperBoundaryExclusive →
      stepBoundary st b =
        if u ≥ b.value then { st with upper := some b.value, upperInclusive := false } else st) ∧
    (getBetweenPredicateCondition true true = PredicateCondition.betweenInclusive ∧
     getBetweenPredicateCondition true false = PredicateCondition.betweenUpperExclusive ∧
     getBetweenPredicateCondition false true = PredicateCondition.betweenLowerExclusive ∧
     getBetweenPredicateCondition false false = PredicateCondition.betweenExclusive) ∧
    (∀ (acc : List Expression × List Expression) (c : Nat) (bs : List ColumnBoundary)
        (lo hi : Int) (linc uinc : Bool),
      bs.foldl stepBoundary initialBoundState = ⟨some lo, linc, some hi, uinc⟩ →
      emitColumn acc (c, bs) =
        (acc.1, acc.2 ++ [Expression.betweenExpr c lo hi
          (getBetweenPredicateCondition linc uinc)])) := by
  refine ⟨?_, ?_, ?_, ?_, by decide, ?_⟩
  · intro ht; simp [stepBoundary, ht, hl]
  · intro ht; simp [stepBoundary, ht, hl]
  · intro ht; simp [stepBoundary, ht, hu]
  · intro ht; simp [stepBoundary, ht, hu]
  · intro acc c bs lo hi linc uinc hfold
    simp [emitColumn, hfold]

/-- Witness for C2 at a concrete bound state and boundary. -/
theorem boundary_reduction_replacement_witness :
    stepBoundary ⟨some 3, true, some 9, true⟩ ⟨0, 5, ColumnBoundaryType.lowerBoundaryInclusive⟩ =
      ⟨some 5, true, some 9, true⟩ := by
  have h := (boundary_reduction_replacement ⟨some 3, true, some 9, true⟩
    ⟨0, 5, ColumnBoundaryType.lowerBoundaryInclusive⟩ 3 9 rfl rfl).1 rfl
  simpa using h

/-! ## Claim C9 -/

/-- C9 counterexample: the rule is not idempotent. On the chain
`col0 >= 5, col1 >= 3, col1 <= 9` the first application emits the
re-emitted one-sided comparison `col0 >= 5` before the composed
between-predicate on col1; the second application passes the
between-predicate through (before the re-emitted comparisons) and so swaps
the two nodes: the plans differ structurally, not merely in node identity.
-/
theorem between_rule_not_idempotent :
    replacePredicates (replacePredicates chainOneSidedPlusPair) ≠
      replacePredicates chainOneSidedPlusPair := by
  decide

/-- C9 amended: the rule is idempotent on every plan whose rewritten chain
consists only of pass-through predicates (between-predicates, non-AND
non-comparison predicates, and comparisons contributing no boundary) — in
particular on fully composed chains; in general a second application can
move re-emitted one-sided comparisons behind the between-predicates. -/
theorem between_rule_idempotent_on_pass_through_image (chain : List Expression)
    (h : ∀ p ∈ replacePredicates chain, passThroughOnly p = true) :
    replacePredicates (replacePredicates chain) = replacePredicates chain :=
  replacePredicates_passThrough (replacePredicates chain) h

/-- Witness for the amended C9 on a fully composed chain. -/
theorem between_rule_idempotent_witness :
    replacePredicates (replacePredicates chainTwoSidedPair) =
      replacePredicates chainTwoSidedPair :=
  between_rule_idempotent_on_pass_through_image chainTwoSidedPair (by decide)

/-! ## Claim C10 -/

/-- C10: on a chain consisting of one predicate node whose AND expression
has no binary comparison conjunct, _replace_predicates rebuilds an EMPTY
node list: no pass-through is pushed (the AND branch pushes nothing),
no boundary is filed, and no between- or re-emitted node is created. The
source then evaluates predicate_nodes.back() and predicate_nodes.front()
on this empty vector — out-of-bounds accesses — so the claimed safety
property fails on this input. -/
theorem replace_predicates_rebuilt_list_empty :
    replacePredicates chainAndNoComparisons = [] := by
  decide

/-! ## Table storage: helper lemmas -/

/-- Folding size accumulation equals the sum of the mapped sizes. -/
theorem foldl_add_length (l : List (List TableRow)) :
    ∀ a : Nat, l.foldl (fun acc c => acc + c.length) a = a + (l.map List.length).sum := by
  induction l with
  | nil => intro a; simp
  | cons c rest ih => intro a; simp [ih, Nat.add_assoc]

/-- Table::row_count equals the sum of the chunk sizes, for every table
however it was built. -/
theorem rowCount_eq_sum_sizes (t : StoreTable) :
    t.rowCount = (t.chunks.map List.length).sum := by
  unfold StoreTable.rowCount
  simpa using foldl_add_length t.chunks 0

/-- Table::append does not change max_chunk_size. -/
theorem append_maxChunkSize (t : StoreTable) (row : TableRow) :
    (t.append row).maxChunkSize = t.maxChunkSize := by
  simp only [StoreTable.append]
  split <;> rfl

/-- Table::append preserves the chunk-size invariant. -/
theorem append_preserves_inv (t : StoreTable) (row : TableRow)
    (hpos : 0 < t.maxChunkSize) (h : AppendInv t) : AppendInv (t.append row) := by
  obtain ⟨hfull, hle⟩ := h
  rcases List.eq_nil_or_concat t.chunks with hc | ⟨init, lst, hc⟩
  · have happ : (t.append row).chunks = [[row]] := by
      simp [StoreTable.append, StoreTable.appendMutableChunk, StoreTable.appendChunk, hc]
    constructor
    · intro c hcmem
      rw [happ] at hcmem
      simp at hcmem
    · intro c hcmem
      rw [show (t.append row).maxChunkSize = t.maxChunkSize from append_maxChunkSize t row]
      rw [happ] at hcmem
      simp at hcmem
      rw [hcmem]
      simpa using hpos
  · rw [List.concat_eq_append] at hc
    by_cases hfullest : lst.length ≥ t.maxChunkSize
    · have hlst_le : lst.length ≤ t.maxChunkSize := hle lst (by rw [hc]; simp)
      have hlst_eq : lst.length = t.maxChunkSize := le_antisymm hlst_le hfullest
      have happ : (t.append row).chunks = (init ++ [lst]) ++ [[row]] := by
        simp [StoreTable.append, StoreTable.appendMutableChunk, StoreTable.appendChunk, hc,
          hfullest]
      constructor
      · intro c hcmem
        rw [show (t.append row).maxChunkSize = t.maxChunkSize from append_maxChunkSize t row]
        rw [happ, List.dropLast_concat] at hcmem
        rcases List.mem_append.mp hcmem with hin | hl
        · exact hfull c (by rw [hc, List.dropLast_concat]; exact hin)
        · simp at hl; rw [hl, hlst_eq]
      · intro c hcmem
        rw [show (t.append row).maxChunkSize = t.maxChunkSize from append_maxChunkSize t row]
        rw [happ] at hcmem
        rcases List.mem_append.mp hcmem with hin | hl
        · exact hle c (by rw [hc]; exact hin)
        · simp at hl; rw [hl]; simpa using hpos
    · have hlt : lst.length < t.maxChunkSize := Nat.lt_of_not_ge hfullest
      have happ : (t.append row).chunks = init ++ [lst ++ [row]] := by
        simp [StoreTable.append, StoreTable.appendMutableChunk, StoreTable.appendChunk, hc,
          hfullest]
      constructor
      · intro c hcmem
        rw [show (t.append row).maxChunkSize = t.maxChunkSize from append_maxChunkSize t row]
        rw [happ, List.dropLast_concat] at hcmem
        exact hfull c (by rw [hc, List.dropLast_concat]; exact hcmem)
      · intro c hcmem
        rw [show (t.append row).maxChunkSize = t.maxChunkSize from append_maxChunkSize t row]
        rw [happ] at hcmem
        rcases List.mem_append.mp hcmem with hin | hl
        · exact hle c (by rw [hc]; exact List.mem_append.mpr (Or.inl hin))
        · simp at hl; rw [hl]; simp; omega

/-- Folding Table::append over a row list preserves the chunk-size invariant
and max_chunk_size. -/
theorem foldl_append_inv (rows : List TableRow) :
    ∀ t : StoreTable, 0 < t.maxChunkSize → AppendInv t →
      AppendInv (rows.foldl StoreTable.append t) ∧
        (rows.foldl StoreTable.append t).maxChunkSize = t.maxChunkSize := by
  induction rows with
  | nil => intro t _ h; exact ⟨h, rfl⟩
  | cons row rest ih =>
    intro t hpos h
    have hmax := append_maxChunkSize t row
    have hstep := append_preserves_inv t row hpos h
    have := ih (t.append row) (by rw [hmax]; exact hpos) hstep
    simpa [hmax] using this

/-! ## Claim C6 -/

/-- C6 counterexample: a table built through the public API using
append_chunk can hold an under-full chunk that is not the last one, so the
claimed invariant fails for tables built through append_chunk (or
append_mutable_chunk): two append_chunk calls with one-row chunks under
max_chunk_size 10 leave the first chunk with 1 row. -/
theorem table_underfull_chunk_counterexample :
    ¬ chunksFullButLast (buildTable [] TableType.data 10 underfullChunkOps) := by
  intro hfull
  exact absurd (hfull [[AllTypeVariant.intValue 1]] (by decide)) (by decide)

/-- C6 amended: row_count always equals the sum of the chunk sizes, and for
every table built through the constructor followed by append calls only,
every chunk except possibly the last has exactly max_chunk_size rows
(append_chunk and append_mutable_chunk can violate the latter). -/
theorem table_append_only_invariant (defs : List ColumnDefinition) (ttype : TableType)
    (mcs : Nat) (rows : List TableRow) (h : 0 < mcs) :
    (buildTable defs ttype mcs (rows.map TableOp.appendRow)).rowCount =
      ((buildTable defs ttype mcs (rows.map TableOp.appendRow)).chunks.map List.length).sum ∧
    chunksFullButLast (buildTable defs ttype mcs (rows.map TableOp.appendRow)) := by
  have hb : buildTable defs ttype mcs (rows.map TableOp.appendRow) =
      rows.foldl StoreTable.append (mkTable defs ttype mcs) := by
    unfold buildTable
    rw [List.foldl_map]
    rfl
  refine ⟨rowCount_eq_sum_sizes _, ?_⟩
  rw [hb]
  have hinv : AppendInv (mkTable defs ttype mcs) := by
    constructor
    · intro c hcmem; simp [mkTable] at hcmem
    · intro c hcmem; simp [mkTable] at hcmem
  exact (foldl_append_inv rows (mkTable defs ttype mcs) h hinv).1.1

/-- Witness for the amended C6: three appended rows with max_chunk_size 2
give chunks of sizes 2 and 1. -/
theorem table_append_only_invariant_witness :
    (buildTable [] TableType.data 2
        ([[AllTypeVariant.intValue 1], [AllTypeVariant.intValue 2],
          [AllTypeVariant.intValue 3]].map TableOp.appendRow)).rowCount =
      ((buildTable [] TableType.data 2
        ([[AllTypeVariant.intValue 1], [AllTypeVariant.intValue 2],
          [AllTypeVariant.intValue 3]].map TableOp.appendRow)).chunks.map List.length).sum ∧
    chunksFullButLast (buildTable [] TableType.data 2
        ([[AllTypeVariant.intValue 1], [AllTypeVariant.intValue 2],
          [AllTypeVariant.intValue 3]].map TableOp.appendRow)) :=
  table_append_only_invariant [] TableType.data 2
    [[AllTypeVariant.intValue 1], [AllTypeVariant.intValue 2], [AllTypeVariant.intValue 3]]
    (by decide)

/-! ## Claim C8 -/

/-- C8: when the nested-loop join writes output segments for a References
input with at least one chunk, every emitted segment references the input's
referenced root table (the referenced table of any of the input's segments
for that column, which all agree) and its position list is the join's
position list dereferenced entry-wise through the input's position lists
with NULL_ROW_ID entries propagated unchanged (the spec-side
specFlattenPosList); when the References input has zero chunks, the
emitted segment references a dummy Data table built from the input's
column definitions and keeps the position list unchanged. -/
theorem write_output_chunks_reference_flattening (t : JoinInputTable) (posList : List RowID)
    (href : t.tableType = TableType.references)
    (hroot : ∀ i < t.chunks.length, ∀ c < t.columnDefinitions.length,
      (segmentAt t i c).referencedTable = (segmentAt t 0 c).referencedTable)
    (hpos : ∀ r ∈ posList, r.isNull = true → r = NULL_ROW_ID) :
    (writeOutputChunks t posList).length = t.columnDefinitions.length ∧
    (0 < t.chunks.length →
      ∀ c, c < t.columnDefinitions.length → ∀ i, i < t.chunks.length →
        (writeOutputChunks t posList).getD c ⟨OutputReferent.inputTable, 0, []⟩ =
          ⟨OutputReferent.table (segmentAt t i c).referencedTable,
           (segmentAt t 0 c).referencedColumnId,
           specFlattenPosList t c posList⟩) ∧
    (t.chunks.length = 0 →
      ∀ c, c < t.columnDefinitions.length →
        (writeOutputChunks t posList).getD c ⟨OutputReferent.inputTable, 0, []⟩ =
          ⟨OutputReferent.dummyTable t.columnDefinitions, c, posList⟩) := by
  have hflat : ∀ c, (posList.map fun row =>
      if row.isNull then NULL_ROW_ID
      else (segmentAt t row.chunkId c).posList.getD row.chunkOffset NULL_ROW_ID) =
      specFlattenPosList t c posList := by
    intro c
    unfold specFlattenPosList
    apply List.map_congr_left
    intro r hr
    by_cases hn : r.isNull = true
    · rw [hpos r hr hn]
      simp [NULL_ROW_ID, RowID.isNull]
    · have hne : ¬(r = NULL_ROW_ID) := by
        intro he; rw [he] at hn; exact hn rfl
      rw [if_neg hn, if_neg hne]
  refine ⟨by simp [writeOutputChunks], ?_, ?_⟩
  · intro hchunks c hc i hi
    have hlen : c < (writeOutputChunks t posList).length := by
      simpa [writeOutputChunks] using hc
    rw [List.getD_eq_getElem _ _ hlen]
    simp only [writeOutputChunks, List.getElem_map, List.getElem_range, href, hchunks,
      eq_self_iff_true, if_true, ite_true]
    rw [hflat c, hroot i hi c hc]
  · intro hchunks c hc
    have hlen : c < (writeOutputChunks t posList).length := by
      simpa [writeOutputChunks] using hc
    rw [List.getD_eq_getElem _ _ hlen]
    simp only [writeOutputChunks, List.getElem_map, List.getElem_range, href,
      eq_self_iff_true, if_true, ite_true]
    rw [if_neg (by omega)]

/-- Witness for C8 on a one-chunk one-column References input: the single
emitted segment references table 7 and the dereferenced position list. -/
theorem write_output_chunks_witness :
    (writeOutputChunks refInputCE posListCE).getD 0 ⟨OutputReferent.inputTable, 0, []⟩ =
      ⟨OutputReferent.table 7, 0, [⟨0, 1⟩, NULL_ROW_ID]⟩ := by
  have h := (write_output_chunks_reference_flattening refInputCE posListCE (by decide)
    (by decide) (by decide)).2.1 (by decide) 0 (by decide) 0 (by decide)
  rw [h]
  decide

/-! ## Dictionary scan: helper lemmas -/

/-- In a strictly sorted list, the lower-bound prefix length is at most `i`
exactly when the element at `i` is at least `v`. -/
theorem takeWhileLt_le_iff (v : Int) :
    ∀ d : List Int, List.Sorted (· < ·) d → ∀ i, ∀ h : i < d.length,
      (((d.takeWhile fun x => decide (x < v)).length ≤ i) ↔ v ≤ d.get ⟨i, h⟩) := by
  intro d
  induction d with
  | nil => intro _ i h; simp at h
  | cons a tl ih =>
    intro hs i h
    obtain ⟨ha, htl⟩ := List.sorted_cons.mp hs
    by_cases hav : a < v
    · rw [List.takeWhile_cons, if_pos (by simpa using hav)]
      cases i with
      | zero =>
        simp only [List.length_cons, List.get_cons_zero]
        constructor
        · intro hle; omega
        · intro hv; exact absurd hv (not_le.mpr hav)
      | succ j =>
        have hj : j < tl.length := by simpa using h
        simp only [List.length_cons, Nat.succ_le_succ_iff, List.get_cons_succ]
        exact ih htl j hj
    · rw [List.takeWhile_cons, if_neg (by simpa using hav)]
      simp only [List.length_nil, Nat.zero_le, true_iff]
      cases i with
      | zero => simpa using le_of_not_lt hav
      | succ j =>
        have hj : j < tl.length := by simpa using h
        simp only [List.get_cons_succ]
        have hmem : tl.get ⟨j, hj⟩ ∈ tl := List.get_mem tl j hj
        exact le_of_lt (lt_of_le_of_lt (le_of_not_lt hav) (ha _ hmem))

/-- In a strictly sorted list, the upper-bound prefix length is at most `i`
exactly when the element at `i` exceeds `v`. -/
theorem takeWhileLe_le_iff (v : Int) :
    ∀ d : List Int, List.Sorted (· < ·) d → ∀ i, ∀ h : i < d.length,
      (((d.takeWhile fun x => decide (x ≤ v)).length ≤ i) ↔ v < d.get ⟨i, h⟩) := by
  intro d
  induction d with
  | nil => intro _ i h; simp at h
  | cons a tl ih =>
    intro hs i h
    obtain ⟨ha, htl⟩ := List.sorted_cons.mp hs
    by_cases hav : a ≤ v
    · rw [List.takeWhile_cons, if_pos (by simpa using hav)]
      cases i with
      | zero =>
        simp only [List.length_cons, List.get_cons_zero]
        constructor
        · intro hle; omega
        · intro hv; exact absurd hv (not_lt.mpr hav)
      | succ j =>
        have hj : j < tl.length := by simpa using h
        simp only [List.length_cons, Nat.succ_le_succ_iff, List.get_cons_succ]
        exact ih htl j hj
    · rw [List.takeWhile_cons, if_neg (by simpa using hav)]
      simp only [List.length_nil, Nat.zero_le, true_iff]
      cases i with
      | zero => simpa using lt_of_not_le hav
      | succ j =>
        have hj : j < tl.length := by simpa using h
        simp only [List.get_cons_succ]
        have hmem : tl.get ⟨j, hj⟩ ∈ tl := List.get_mem tl j hj
        exact lt_trans (lt_of_not_le hav) (ha _ hmem)

/-- lower_bound never exceeds the dictionary size. -/
theorem lowerBound_le_length (s : DictionarySegment) (v : Int) :
    s.lowerBound v ≤ s.dictionary.length :=
  (List.takeWhile_sublist _).length_le

/-- upper_bound never exceeds the dictionary size. -/
theorem upperBound_le_length (s : DictionarySegment) (v : Int) :
    s.upperBound v ≤ s.dictionary.length :=
  (List.takeWhile_sublist _).length_le

/-- lower_bound of a sorted dictionary is below a position iff that
position's value is at least the probe. -/
theorem lowerBound_le_iff (s : DictionarySegment) (v : Int)
    (hsort : s.dictionary.Sorted (· < ·)) (i : Nat) (h : i < s.dictionary.length) :
    (s.lowerBound v ≤ i ↔ v ≤ s.dictionary.get ⟨i, h⟩) :=
  takeWhileLt_le_iff v s.dictionary hsort i h

/-- upper_bound of a sorted dictionary is below a position iff that
position's value exceeds the probe. -/
theorem upperBound_le_iff (s : DictionarySegment) (v : Int)
    (hsort : s.dictionary.Sorted (· < ·)) (i : Nat) (h : i < s.dictionary.length) :
    (s.upperBound v ≤ i ↔ v < s.dictionary.get ⟨i, h⟩) :=
  takeWhileLe_le_iff v s.dictionary hsort i h

/-- The adjusted right value id never exceeds the dictionary size. -/
theorem dictRightValueId_le_length (s : DictionarySegment) (hi : Int)
    (cond : PredicateCondition) : dictRightValueId s hi cond ≤ s.dictionary.length := by
  unfold dictRightValueId DictionarySegment.uniqueValuesCount
  have hboth : (if isUpperInclusive cond then s.upperBound hi else s.lowerBound hi) ≤
      s.dictionary.length := by
    by_cases hu : isUpperInclusive cond
    · simp [hu, upperBound_le_length]
    · simp [hu, lowerBound_le_length]
  by_cases hI : (if isUpperInclusive cond then s.upperBound hi else s.lowerBound hi) =
      INVALID_VALUE_ID
  · simp [hI]
  · simp only [hI, if_false, ite_false]
    exact hboth

/-- For a dictionary that fits in ValueID, the INVALID_VALUE_ID adjustment
of the right value id is a no-op. -/
theorem dictRightValueId_eq_raw (s : DictionarySegment) (hi : Int)
    (cond : PredicateCondition) (hsize : s.dictionary.length < INVALID_VALUE_ID) :
    dictRightValueId s hi cond =
      if isUpperInclusive cond then s.upperBound hi else s.lowerBound hi := by
  unfold dictRightValueId
  have hboth : (if isUpperInclusive cond then s.upperBound hi else s.lowerBound hi) ≤
      s.dictionary.length := by
    by_cases hu : isUpperInclusive cond
    · simp [hu, upperBound_le_length]
    · simp [hu, lowerBound_le_length]
  have hne : (if isUpperInclusive cond then s.upperBound hi else s.lowerBound hi) ≠
      INVALID_VALUE_ID := by
    have hI : INVALID_VALUE_ID = 4294967295 := rfl
    rw [show INVALID_VALUE_ID = 4294967295 from rfl] at hsize
    omega
  simp [hne]

/-- Attribute codes read through getD stay at most the dictionary size. -/
theorem attr_code_le (s : DictionarySegment)
    (hcodes : ∀ c ∈ s.attributeVector, c ≤ s.dictionary.length) (o : Nat) :
    s.attributeVector.getD o 0 ≤ s.dictionary.length := by
  by_cases ho : o < s.attributeVector.length
  · rw [List.getD_eq_getElem _ _ ho]
    exact hcodes _ (List.getElem_mem ho)
  · have hle : s.attributeVector.length ≤ o := Nat.le_of_not_lt ho
    simp [List.getD_eq_getElem?_getD, List.getElem?_eq_none hle]

/-- The unsigned uint32 trick: for in-range operands,
`(code - left) mod 2^32 < (right - left) mod 2^32` is the half-open range
test `left ≤ code < right`. -/
theorem unsigned_range_check (code left right : Nat) (hcode : code < 4294967296)
    (hright : right < 4294967296) (hle : left ≤ right) :
    (((code + 4294967296 - left) % 4294967296 <
        (right + 4294967296 - left) % 4294967296) ↔ (left ≤ code ∧ code < right)) := by
  omega

/-- A code at most the dictionary size passes the generic between test iff
it lies in the half-open value-id range of the dictionary path. -/
theorem dict_code_match_iff (s : DictionarySegment) (lo hi : Int) (cond : PredicateCondition)
    (hsort : s.dictionary.Sorted (· < ·)) (hsize : s.dictionary.length < INVALID_VALUE_ID)
    (hcond : isBetweenCondition cond = true) (code : Nat)
    (hcode : code ≤ s.dictionary.length) :
    (if code = s.dictionary.length then false
     else betweenHolds cond (s.dictionary.getD code 0) lo hi) =
      decide (dictLeftValueId s lo cond ≤ code ∧ code < dictRightValueId s hi cond) := by
  by_cases hnull : code = s.dictionary.length
  · rw [if_pos hnull]
    have hR := dictRightValueId_le_length s hi cond
    symm
    apply decide_eq_false
    rintro ⟨_, hlt⟩
    omega
  · rw [if_neg hnull]
    have hc : code < s.dictionary.length := Nat.lt_of_le_of_ne hcode hnull
    have hget : s.dictionary.getD code 0 = s.dictionary.get ⟨code, hc⟩ := by
      rw [List.getD_eq_getElem _ _ hc]
      rfl
    rw [hget, dictRightValueId_eq_raw s hi cond hsize]
    cases cond with
    | betweenInclusive =>
      have h1 := lowerBound_le_iff s lo hsort code hc
      have h2 := upperBound_le_iff s hi hsort code hc
      have h2' : code < s.upperBound hi ↔ s.dictionary.get ⟨code, hc⟩ ≤ hi := by
        simpa [not_le, not_lt] using not_congr h2
      apply Bool.eq_iff_iff.mpr
      simp only [betweenHolds, Bool.and_eq_true, decide_eq_true_eq, dictLeftValueId,
        isLowerInclusive, isUpperInclusive, if_true, ite_true]
      exact and_congr h1.symm h2'.symm
    | betweenLowerExclusive =>
      have h1 := upperBound_le_iff s lo hsort code hc
      have h2 := upperBound_le_iff s hi hsort code hc
      have h2' : code < s.upperBound hi ↔ s.dictionary.get ⟨code, hc⟩ ≤ hi := by
        simpa [not_le, not_lt] using not_congr h2
      apply Bool.eq_iff_iff.mpr
      simp only [betweenHolds, Bool.and_eq_true, decide_eq_true_eq, dictLeftValueId,
        isLowerInclusive, isUpperInclusive, if_false, ite_false, if_true, ite_true,
        Bool.false_eq_true]
      exact and_congr h1.symm h2'.symm
    | betweenUpperExclusive =>
      have h1 := lowerBound_le_iff s lo hsort code hc
      have h2 := lowerBound_le_iff s hi hsort code hc
      have h2' : code < s.lowerBound hi ↔ s.dictionary.get ⟨code, hc⟩ < hi := by
        simpa [not_le, not_lt] using not_congr h2
      apply Bool.eq_iff_iff.mpr
      simp only [betweenHolds, Bool.and_eq_true, decide_eq_true_eq, dictLeftValueId,
        isLowerInclusive, isUpperInclusive, if_false, ite_false, if_true, ite_true,
        Bool.false_eq_true]
      exact and_congr h1.symm h2'.symm
    | betweenExclusive =>
      have h1 := upperBound_le_iff s lo hsort code hc
      have h2 := lowerBound_le_iff s hi hsort code hc
      have h2' : code < s.lowerBound hi ↔ s.dictionary.get ⟨code, hc⟩ < hi := by
        simpa [not_le, not_lt] using not_congr h2
      apply Bool.eq_iff_iff.mpr
      simp only [betweenHolds, Bool.and_eq_true, decide_eq_true_eq, dictLeftValueId,
        isLowerInclusive, isUpperInclusive, if_false, ite_false, if_true, ite_true,
        Bool.false_eq_true]
      exact and_congr h1.symm h2'.symm
    | equals => simp [isBetweenCondition] at hcond
    | notEquals => simp [isBetweenCondition] at hcond
    | lessThan => simp [isBetweenCondition] at hcond
    | lessThanEquals => simp [isBetweenCondition] at hcond
    | greaterThan => simp [isBetweenCondition] at hcond
    | greaterThanEquals => simp [isBetweenCondition] at hcond

/-- The all-match shortcut and the range test agree on a code bounded by the
NULL code. -/
theorem all_match_filter_eq (code n : Nat) (hco : code ≤ n) :
    (!decide (code = n)) = decide (0 ≤ code ∧ code < n) := by
  by_cases h : code = n
  · subst h; simp
  · simp [h, Nat.lt_of_le_of_ne hco h]

/-- The dictionary-optimized scan path equals the generic scan path on every
well-formed dictionary segment, for every between condition and position
filter (shared core of the scan claims). -/
theorem scanDict_eq_scanGeneric (s : DictionarySegment) (lo hi : Int)
    (cond : PredicateCondition) (positionFilter : Option (List Nat))
    (hwf : s.WellFormed) (hcond : isBetweenCondition cond = true) :
    scanDictionarySegment s lo hi cond positionFilter =
      scanGenericSegment s lo hi cond positionFilter := by
  obtain ⟨hsort, hcodes, hsize⟩ := hwf
  have hmatch : ∀ o : Nat,
      (if s.attributeVector.getD o 0 = s.dictionary.length then false
       else betweenHolds cond (s.dictionary.getD (s.attributeVector.getD o 0) 0) lo hi) =
      decide (dictLeftValueId s lo cond ≤ s.attributeVector.getD o 0 ∧
        s.attributeVector.getD o 0 < dictRightValueId s hi cond) :=
    fun o => dict_code_match_iff s lo hi cond hsort hsize hcond _ (attr_code_le s hcodes o)
  have hRle := dictRightValueId_le_length s hi cond
  have hI : INVALID_VALUE_ID = 4294967295 := rfl
  rw [hI] at hsize
  unfold scanDictionarySegment scanGenericSegment
  split_ifs with h1 h2
  · apply List.filter_congr
    intro o _
    have hco := attr_code_le s hcodes o
    have hu : s.uniqueValuesCount = s.dictionary.length := rfl
    rw [hu] at h1
    rw [hmatch o, h1.1, h1.2]
    exact all_match_filter_eq _ _ hco
  · symm
    rw [List.filter_eq_nil_iff]
    intro o _
    rw [hmatch o]
    simp only [decide_eq_true_eq, not_and, not_lt]
    intro hL
    have hco := attr_code_le s hcodes o
    have hu : s.uniqueValuesCount = s.dictionary.length := rfl
    rw [hu] at h2
    rw [hI] at h2
    omega
  · apply List.filter_congr
    intro o _
    have hco := attr_code_le s hcodes o
    rw [hmatch o]
    have hu : s.uniqueValuesCount = s.dictionary.length := rfl
    rw [hu, hI] at h2
    push_neg at h2
    obtain ⟨hne, hlen, hlr⟩ := h2
    rw [decide_eq_decide]
    exact unsigned_range_check _ _ _ (by omega) (by omega) (le_of_lt hlr)

/-! ## Claim C3 -/

/-- C3: for every well-formed dictionary segment, every pair of (non-NULL,
typed) scan bounds, every between predicate condition and every position
filter, the dictionary-accelerated scan path — value-id bounds, all-match
shortcut, no-match shortcut and the unsigned range test — produces exactly
the same position list, in the same order, as the generic typed-iteration
scan path. -/
theorem dictionary_scan_equals_generic_scan (s : DictionarySegment) (lo hi : Int)
    (cond : PredicateCondition) (positionFilter : Option (List Nat))
    (hwf : s.WellFormed) (hcond : isBetweenCondition cond = true) :
    scanDictionarySegment s lo hi cond positionFilter =
      scanGenericSegment s lo hi cond positionFilter :=
  scanDict_eq_scanGeneric s lo hi cond positionFilter hwf hcond

/-- Witness for C3 on a concrete dictionary segment with NULLs and a
position filter. -/
theorem dictionary_scan_equals_generic_scan_witness :
    scanDictionarySegment dictSegCE 2 3 PredicateCondition.betweenInclusive
        (some [0, 2, 4]) =
      scanGenericSegment dictSegCE 2 3 PredicateCondition.betweenInclusive
        (some [0, 2, 4]) :=
  dictionary_scan_equals_generic_scan dictSegCE 2 3 PredicateCondition.betweenInclusive
    (some [0, 2, 4]) ⟨by decide, by decide, by decide⟩ (by decide)

/-! ## Claim C7 -/

/-- C7: if either between-scan bound is NULL, the scan emits no positions
for the segment (the early-out of _scan_non_reference_segment), and a
position whose column value is NULL is never emitted as a match on either
the generic path or the dictionary path. -/
theorem between_scan_null_semantics (seg : Segment) (lo hi : AllTypeVariant)
    (cond : PredicateCondition) (positionFilter : Option (List Nat))
    (hsz : seg.SizeOk) :
    ((variantIsNull lo = true ∨ variantIsNull hi = true) →
      scanNonReferenceSegment seg lo hi cond positionFilter = []) ∧
    (∀ o ∈ scanNonReferenceSegment seg lo hi cond positionFilter,
      segmentIsNullAt seg o = false) := by
  constructor
  · intro hnull
    unfold scanNonReferenceSegment
    rcases hnull with h | h <;> simp [h]
  · intro o ho
    unfold scanNonReferenceSegment at ho
    by_cases hnull : (variantIsNull lo || variantIsNull hi) = true
    · rw [if_pos hnull] at ho; simp at ho
    · rw [if_neg hnull] at ho
      cases seg with
      | value vs =>
        cases lo with
        | null => simp [variantIsNull] at hnull
        | intValue lv =>
          cases hi with
          | null => simp [variantIsNull] at hnull
          | intValue hv =>
            replace ho : o ∈ scanGenericValueSegment vs lv hv cond positionFilter := ho
            unfold scanGenericValueSegment at ho
            have hpred := List.of_mem_filter ho
            show decide (vs.getD o (some 0) = none) = false
            cases hvo : vs.getD o none with
            | none => rw [hvo] at hpred; simp at hpred
            | some x =>
              have holt : o < vs.length := by
                by_contra hge
                have hnone : vs.getD o none = none := by
                  simp [List.getD_eq_getElem?_getD,
                    List.getElem?_eq_none (Nat.le_of_not_lt hge)]
                rw [hnone] at hvo
                cases hvo
              have h1 : vs.getD o none = vs.get ⟨o, holt⟩ := by
                rw [List.getD_eq_getElem _ _ holt]; rfl
              have h2 : vs.getD o (some 0) = vs.get ⟨o, holt⟩ := by
                rw [List.getD_eq_getElem _ _ holt]; rfl
              rw [h2, ← h1, hvo]
              simp
      | dict s =>
        cases lo with
        | null => simp [variantIsNull] at hnull
        | intValue lv =>
          cases hi with
          | null => simp [variantIsNull] at hnull
          | intValue hv =>
            replace ho : o ∈ scanDictionarySegment s lv hv cond positionFilter := ho
            show decide (s.attributeVector.getD o 0 = s.dictionary.length) = false
            unfold scanDictionarySegment at ho
            split_ifs at ho with h1 h2
            · have hpred := List.of_mem_filter ho
              simpa using hpred
            · simp at ho
            · have hpred := List.of_mem_filter ho
              simp only [decide_eq_true_eq] at hpred
              have hRle := dictRightValueId_le_length s hv cond
              push_neg at h2
              obtain ⟨hni, hlu, hlr⟩ := h2
              have hu : s.uniqueValuesCount = s.dictionary.length := rfl
              rw [hu] at hlu
              have hsz' : s.dictionary.length < INVALID_VALUE_ID := hsz
              rw [show INVALID_VALUE_ID = 4294967295 from rfl] at hsz'
              by_contra hnn
              simp only [Bool.not_eq_false, decide_eq_true_eq] at hnn
              rw [hnn] at hpred
              omega

/-- Witness for C7: a NULL lower bound empties the dictionary scan. -/
theorem between_scan_null_semantics_witness :
    scanNonReferenceSegment (Segment.dict dictSegCE) AllTypeVariant.null
      (AllTypeVariant.intValue 3) PredicateCondition.betweenInclusive none = [] :=
  (between_scan_null_semantics (Segment.dict dictSegCE) AllTypeVariant.null
    (AllTypeVariant.intValue 3) PredicateCondition.betweenInclusive none
    (by unfold Segment.SizeOk; decide)).1 (Or.inl (by decide))

/-! ## Nested-loop join: helper lemmas -/

/-- Pairwise property of a flatMap over an index range, from pairwiseness
inside each block and the relation across blocks in index order. -/
theorem pairwise_flatMap_range {α : Type} (R : α → α → Prop) (n : Nat) (f : Nat → List α)
    (hwithin : ∀ i, i < n → (f i).Pairwise R)
    (hacross : ∀ i j, i < j → j < n → ∀ a ∈ f i, ∀ b ∈ f j, R a b) :
    ((List.range n).flatMap f).Pairwise R := by
  rw [List.flatMap_def]
  apply List.pairwise_flatten.mpr
  constructor
  · intro l hl
    obtain ⟨i, hi, rfl⟩ := List.mem_map.mp hl
    exact hwithin i (List.mem_range.mp hi)
  · rw [List.pairwise_map]
    exact List.Pairwise.imp_of_mem
      (fun ha hb hab => hacross _ _ hab (List.mem_range.mp hb))
      (List.pairwise_lt_range n)

/-- Pairwise property of a filterMap over an index range, from the relation
between the emitted elements of distinct indices in index order. -/
theorem pairwise_filterMap_range {α : Type} (R : α → α → Prop) (n : Nat)
    (f : Nat → Option α)
    (hacross : ∀ i j, i < j → j < n → ∀ a, f i = some a → ∀ b, f j = some b → R a b) :
    ((List.range n).filterMap f).Pairwise R := by
  induction n with
  | zero => simp
  | succ m ih =>
    rw [List.range_succ, List.filterMap_append]
    apply List.pairwise_append.mpr
    refine ⟨ih (fun i j hij hj => hacross i j hij (Nat.lt_succ_of_lt hj)), ?_, ?_⟩
    · cases hm : f m with
      | none => simp [hm]
      | some a => simp [hm]
    · intro a ha b hb
      rw [List.mem_filterMap] at ha
      obtain ⟨i, hi, hfa⟩ := ha
      rw [List.mem_range] at hi
      have hbm : f m = some b := by
        cases hm : f m with
        | none => simp [hm] at hb
        | some x => simp [hm] at hb; rw [hb]
      exact hacross i m hi (Nat.lt_succ_self m) a hfa b hbm

/-- Every emitted inner-loop element is the offset pair of its iteration. -/
theorem innerLoopStep_some (cond : PredicateCondition) (lv : Int) (rs : JoinChunk)
    (lo ro : Nat) (p : Nat × Nat) (h : innerLoopStep cond lv rs lo ro = some p) :
    p = (lo, ro) := by
  unfold innerLoopStep at h
  cases hr : rs.getD ro none with
  | none =>
    rw [hr] at h
    exact Option.noConfusion h
  | some rv =>
    simp only [hr] at h
    by_cases hc : compareValues cond lv rv = true
    · rw [if_pos hc] at h
      injection h with h
      exact h.symm
    · rw [if_neg hc] at h
      cases h

/-- The offsets of an emitted chunk-pair match are in range. -/
theorem chunkPairMatches_mem_lt (cond : PredicateCondition) (ls rs : JoinChunk)
    (p : Nat × Nat) (hp : p ∈ chunkPairMatches cond ls rs) :
    p.1 < ls.length ∧ p.2 < rs.length := by
  unfold chunkPairMatches at hp
  rw [List.mem_flatMap] at hp
  obtain ⟨lo, hlo, hp⟩ := hp
  rw [List.mem_range] at hlo
  cases hl : ls.getD lo none with
  | none =>
    rw [hl] at hp
    simp at hp
  | some lv =>
    simp only [hl, List.mem_filterMap] at hp
    obtain ⟨ro, hro, hp⟩ := hp
    rw [List.mem_range] at hro
    have hpe := innerLoopStep_some cond lv rs lo ro p hp
    subst hpe
    exact ⟨hlo, hro⟩

/-- Every chunk-pair match with a given left offset names that offset. -/
theorem chunkPairMatches_block_fst (cond : PredicateCondition) (ls rs : JoinChunk)
    (lo : Nat) (a : Nat × Nat)
    (ha : a ∈ (match ls.getD lo none with
      | none => ([] : List (Nat × Nat))
      | some lv => (List.range rs.length).filterMap (innerLoopStep cond lv rs lo))) :
    a.1 = lo := by
  cases hl : ls.getD lo none with
  | none =>
    rw [hl] at ha
    simp at ha
  | some lv =>
    simp only [hl, List.mem_filterMap] at ha
    obtain ⟨ro, _, ha⟩ := ha
    rw [innerLoopStep_some cond lv rs lo ro a ha]

/-- The chunk-pair matches are emitted in strictly increasing
(left offset, right offset) lexicographic order. -/
theorem chunkPairMatches_pairwise (cond : PredicateCondition) (ls rs : JoinChunk) :
    (chunkPairMatches cond ls rs).Pairwise
      (fun p q : Nat × Nat => p.1 < q.1 ∨ (p.1 = q.1 ∧ p.2 < q.2)) := by
  unfold chunkPairMatches
  apply pairwise_flatMap_range
  · intro lo _
    cases hl : ls.getD lo none with
    | none => simp
    | some lv =>
      simp only [hl]
      apply pairwise_filterMap_range
      intro i j hij _ a ha b hb
      rw [innerLoopStep_some cond lv rs lo i a ha, innerLoopStep_some cond lv rs lo j b hb]
      exact Or.inr ⟨rfl, hij⟩
  · intro i j hij _ a ha b hb
    have ha1 := chunkPairMatches_block_fst cond ls rs i a ha
    have hb1 := chunkPairMatches_block_fst cond ls rs j b hb
    rw [ha1, hb1]
    exact Or.inl hij

/-- A pairwise relation holds whenever it holds of every element against
everything. -/
theorem pairwise_of_mem_left {α : Type} (R : α → α → Prop) (l : List α)
    (h : ∀ p ∈ l, ∀ q, R p q) : l.Pairwise R := by
  induction l with
  | nil => exact List.Pairwise.nil
  | cons a tl ih =>
    constructor
    · intro b _
      exact h a (List.mem_cons_self a tl) b
    · exact ih fun p hp q => h p (List.mem_cons_of_mem a hp) q

/-- A RowID with a valid chunk id is not the NULL sentinel. -/
theorem rowid_ne_null_of_chunkId (r : RowID) (h : r.chunkId ≠ 4294967295) :
    r ≠ NULL_ROW_ID := by
  intro he
  rw [he] at h
  exact h rfl

/-- Shape of a matched row of left chunk `i`: its left RowID names chunk
`i` with an in-range offset, and its right RowID names an in-range chunk
and offset. -/
theorem mem_joinMatchedRows (c : PredicateCondition) (lt rt : List JoinChunk) (i : Nat)
    (q : RowID × RowID) (hq : q ∈ joinMatchedRows c lt rt i) :
    q.1.chunkId = i ∧ q.1.chunkOffset < (lt.getD i []).length ∧
    q.2.chunkId < rt.length ∧ q.2.chunkOffset < (rt.getD q.2.chunkId []).length := by
  unfold joinMatchedRows at hq
  rw [List.mem_flatMap] at hq
  obtain ⟨j, hj, hq⟩ := hq
  rw [List.mem_range] at hj
  rw [List.mem_map] at hq
  obtain ⟨p, hp, rfl⟩ := hq
  have hlt := chunkPairMatches_mem_lt c (lt.getD i []) (rt.getD j []) p hp
  exact ⟨rfl, hlt.1, hj, hlt.2⟩

/-- Membership in the unmatched-left padding of chunk `i`. -/
theorem mem_leftPadRows (c : PredicateCondition) (ls : JoinChunk) (rt : List JoinChunk)
    (i : Nat) (q : RowID × RowID) :
    q ∈ leftPadRows c ls rt i ↔
      ∃ lo, lo < ls.length ∧ leftOffsetMatched c ls rt lo = false ∧
        q = (RowID.mk i lo, NULL_ROW_ID) := by
  unfold leftPadRows
  rw [List.mem_filterMap]
  constructor
  · rintro ⟨lo, hlo, hq⟩
    rw [List.mem_range] at hlo
    by_cases hm : leftOffsetMatched c ls rt lo = true
    · rw [if_pos hm] at hq
      exact Option.noConfusion hq
    · rw [if_neg hm] at hq
      injection hq with hq
      exact ⟨lo, hlo, by simpa using hm, hq.symm⟩
  · rintro ⟨lo, hlo, hm, rfl⟩
    refine ⟨lo, List.mem_range.mpr hlo, ?_⟩
    rw [if_neg (by simp [hm])]

/-- Shape of an unmatched-right padding row: NULL on the left, an in-range
right chunk id on the right. -/
theorem mem_joinRightPadRows (mode : JoinMode) (c : PredicateCondition)
    (lt rt : List JoinChunk) (q : RowID × RowID)
    (hq : q ∈ joinRightPadRows mode c lt rt) :
    q.1 = NULL_ROW_ID ∧ q.2.chunkId < rt.length := by
  unfold joinRightPadRows at hq
  by_cases hmode : mode = JoinMode.outer
  · rw [if_pos hmode] at hq
    rw [List.mem_flatMap] at hq
    obtain ⟨j, hj, hq⟩ := hq
    rw [List.mem_range] at hj
    rw [List.mem_filterMap] at hq
    obtain ⟨ro, _, hq⟩ := hq
    by_cases hm : rightOffsetMatched c lt (rt.getD j []) ro = true
    · rw [if_pos hm] at hq
      exact Option.noConfusion hq
    · rw [if_neg hm] at hq
      injection hq with hq
      subst hq
      exact ⟨rfl, hj⟩
  · rw [if_neg hmode] at hq
    simp at hq

/-- Every row emitted for left chunk `i` names chunk `i` on the left. -/
theorem joinChunkRows_fst (mode : JoinMode) (c : PredicateCondition)
    (lt rt : List JoinChunk) (i : Nat) (q : RowID × RowID)
    (hq : q ∈ joinChunkRows mode c lt rt i) : q.1.chunkId = i := by
  unfold joinChunkRows at hq
  split_ifs at hq
  · rw [List.mem_append] at hq
    rcases hq with hq | hq
    · exact (mem_joinMatchedRows c lt rt i q hq).1
    · rw [mem_leftPadRows] at hq
      obtain ⟨lo, _, _, rfl⟩ := hq
      rfl
  · exact (mem_joinMatchedRows c lt rt i q hq).1

/-- A padding entry (NULL on the right) is never a matched entry. -/
theorem matchedEntry_false_of_null_right (q : RowID × RowID) (h : q.2 = NULL_ROW_ID) :
    matchedEntry q = false := by
  unfold matchedEntry
  rw [h]
  simp

/-- A padding entry (NULL on the left) is never a matched entry. -/
theorem matchedEntry_false_of_null_left (q : RowID × RowID) (h : q.1 = NULL_ROW_ID) :
    matchedEntry q = false := by
  unfold matchedEntry
  rw [h]
  simp

/-- The matched rows of one left chunk are emitted in strictly increasing
(left chunk, right chunk, left offset, right offset) order. -/
theorem joinMatchedRows_pairwise (c : PredicateCondition) (lt rt : List JoinChunk)
    (i : Nat) :
    (joinMatchedRows c lt rt i).Pairwise
      (fun p q => lex4Lt (actualKey p) (actualKey q)) := by
  unfold joinMatchedRows
  apply pairwise_flatMap_range
  · intro j _
    rw [List.pairwise_map]
    apply List.Pairwise.imp ?_ (chunkPairMatches_pairwise c (lt.getD i []) (rt.getD j []))
    intro p q hpq
    unfold lex4Lt actualKey
    rcases hpq with h | ⟨he, h⟩
    · exact Or.inr ⟨rfl, Or.inr ⟨rfl, Or.inl h⟩⟩
    · exact Or.inr ⟨rfl, Or.inr ⟨rfl, Or.inr ⟨he, h⟩⟩⟩
  · intro j j2 hjj _ a ha b hb
    rw [List.mem_map] at ha hb
    obtain ⟨p, _, rfl⟩ := ha
    obtain ⟨q, _, rfl⟩ := hb
    unfold lex4Lt actualKey
    exact Or.inr ⟨rfl, Or.inl hjj⟩

/-- The rows of one left chunk obey the conditional match-order relation:
matched entries in the actual key order, padding entries unconstrained. -/
theorem joinChunkRows_pairwise_matchKey (mode : JoinMode) (c : PredicateCondition)
    (lt rt : List JoinChunk) (i : Nat) :
    (joinChunkRows mode c lt rt i).Pairwise
      (fun p q => matchedEntry p = true → matchedEntry q = true →
        lex4Lt (actualKey p) (actualKey q)) := by
  unfold joinChunkRows
  split_ifs
  · apply List.pairwise_append.mpr
    refine ⟨List.Pairwise.imp (fun h _ _ => h) (joinMatchedRows_pairwise c lt rt i),
      ?_, ?_⟩
    · apply pairwise_of_mem_left
      intro p hp q hmp _
      rw [mem_leftPadRows] at hp
      obtain ⟨lo, _, _, rfl⟩ := hp
      rw [matchedEntry_false_of_null_right _ rfl] at hmp
      cases hmp
    · intro a _ b hb _ hmb
      rw [mem_leftPadRows] at hb
      obtain ⟨lo, _, _, rfl⟩ := hb
      rw [matchedEntry_false_of_null_right _ rfl] at hmb
      cases hmb
  · exact List.Pairwise.imp (fun h _ _ => h) (joinMatchedRows_pairwise c lt rt i)

/-- The full output obeys the conditional match-order relation. -/
theorem join_pairwise_matchKey (mode : JoinMode) (cond : PredicateCondition)
    (leftIn rightIn : List JoinChunk) :
    (joinPosLists mode cond leftIn rightIn).Pairwise
      (fun p q => matchedEntry p = true → matchedEntry q = true →
        lex4Lt (actualKey p) (actualKey q)) := by
  unfold joinPosLists
  apply List.pairwise_append.mpr
  refine ⟨?_, ?_, ?_⟩
  · apply pairwise_flatMap_range
    · intro i _
      exact joinChunkRows_pairwise_matchKey mode (joinCondition mode cond) _ _ i
    · intro i j hij _ a ha b hb hma hmb
      have ha1 := joinChunkRows_fst _ _ _ _ i a ha
      have hb1 := joinChunkRows_fst _ _ _ _ j b hb
      unfold lex4Lt actualKey
      rw [ha1, hb1]
      exact Or.inl hij
  · apply pairwise_of_mem_left
    intro p hp q hmp _
    have h1 := (mem_joinRightPadRows _ _ _ _ p hp).1
    rw [matchedEntry_false_of_null_left p h1] at hmp
    cases hmp
  · intro a _ b hb _ hmb
    have h1 := (mem_joinRightPadRows _ _ _ _ b hb).1
    rw [matchedEntry_false_of_null_left b h1] at hmb
    cases hmb

/-- A pairwise relation holds whenever it holds of everything against every
element. -/
theorem pairwise_of_mem_right {α : Type} (R : α → α → Prop) (l : List α)
    (h : ∀ q ∈ l, ∀ p, R p q) : l.Pairwise R := by
  induction l with
  | nil => exact List.Pairwise.nil
  | cons a tl ih =>
    constructor
    · intro b hb
      exact h b (List.mem_cons_of_mem a hb) a
    · exact ih fun q hq p => h q (List.mem_cons_of_mem a hq) p

/-- The full output never places an unmatched-left padding entry of a chunk
before a matched entry of the same left chunk. -/
theorem join_pairwise_leftPad (mode : JoinMode) (cond : PredicateCondition)
    (leftIn rightIn : List JoinChunk)
    (hszR : (joinRightInput mode leftIn rightIn).length ≤ 4294967295) :
    (joinPosLists mode cond leftIn rightIn).Pairwise
      (fun p q => ¬(p.2 = NULL_ROW_ID ∧ p.1 ≠ NULL_ROW_ID ∧ matchedEntry q = true ∧
        p.1.chunkId = q.1.chunkId)) := by
  unfold joinPosLists
  apply List.pairwise_append.mpr
  refine ⟨?_, ?_, ?_⟩
  · apply pairwise_flatMap_range
    · intro i _
      unfold joinChunkRows
      split_ifs
      · apply List.pairwise_append.mpr
        refine ⟨?_, ?_, ?_⟩
        · apply pairwise_of_mem_left
          intro p hp q
          rintro ⟨hnull, -, -, -⟩
          obtain ⟨-, -, hjlt, -⟩ := mem_joinMatchedRows _ _ _ i p hp
          have hpc : p.2.chunkId = 4294967295 := by rw [hnull]; rfl
          omega
        · apply pairwise_of_mem_right
          intro q hq p
          rintro ⟨-, -, hmq, -⟩
          rw [mem_leftPadRows] at hq
          obtain ⟨lo, -, -, rfl⟩ := hq
          rw [matchedEntry_false_of_null_right _ rfl] at hmq
          cases hmq
        · intro a _ b hb
          rintro ⟨-, -, hmb, -⟩
          rw [mem_leftPadRows] at hb
          obtain ⟨lo, -, -, rfl⟩ := hb
          rw [matchedEntry_false_of_null_right _ rfl] at hmb
          cases hmb
      · apply pairwise_of_mem_left
        intro p hp q
        rintro ⟨hnull, -, -, -⟩
        obtain ⟨-, -, hjlt, -⟩ := mem_joinMatchedRows _ _ _ i p hp
        have hpc : p.2.chunkId = 4294967295 := by rw [hnull]; rfl
        omega
    · intro i j hij _ a ha b hb
      rintro ⟨-, -, -, hsame⟩
      have ha1 := joinChunkRows_fst _ _ _ _ i a ha
      have hb1 := joinChunkRows_fst _ _ _ _ j b hb
      rw [ha1, hb1] at hsame
      omega
  · apply pairwise_of_mem_left
    intro p hp q
    rintro ⟨-, hreal, -, -⟩
    exact hreal (mem_joinRightPadRows _ _ _ _ p hp).1
  · intro a _ b hb
    rintro ⟨-, -, hmb, -⟩
    rw [matchedEntry_false_of_null_left b (mem_joinRightPadRows _ _ _ _ b hb).1] at hmb
    cases hmb

/-- The full output places every NULL-left (unmatched-right) entry after
all entries with a real left RowID. -/
theorem join_pairwise_rightPadLast (mode : JoinMode) (cond : PredicateCondition)
    (leftIn rightIn : List JoinChunk)
    (hszL : (joinLeftInput mode leftIn rightIn).length ≤ 4294967295) :
    (joinPosLists mode cond leftIn rightIn).Pairwise
      (fun p q => ¬(p.1 = NULL_ROW_ID ∧ q.1 ≠ NULL_ROW_ID)) := by
  unfold joinPosLists
  apply List.pairwise_append.mpr
  refine ⟨?_, ?_, ?_⟩
  · apply pairwise_flatMap_range
    · intro i hi
      apply pairwise_of_mem_left
      intro p hp q
      rintro ⟨hnull, -⟩
      have h1 := joinChunkRows_fst _ _ _ _ i p hp
      have hpc : p.1.chunkId = 4294967295 := by rw [hnull]; rfl
      omega
    · intro i j hij hj a ha b hb
      rintro ⟨hnull, -⟩
      have h1 := joinChunkRows_fst _ _ _ _ i a ha
      have hac : a.1.chunkId = 4294967295 := by rw [hnull]; rfl
      omega
  · apply pairwise_of_mem_right
    intro q hq p
    rintro ⟨-, hreal⟩
    exact hreal (mem_joinRightPadRows _ _ _ _ q hq).1
  · intro a ha b hb
    rintro ⟨hnull, -⟩
    rw [List.mem_flatMap] at ha
    obtain ⟨i, hi, ha⟩ := ha
    rw [List.mem_range] at hi
    have h1 := joinChunkRows_fst _ _ _ _ i a ha
    have hac : a.1.chunkId = 4294967295 := by rw [hnull]; rfl
    omega

/-! ## Claim C4 -/

/-- C4 counterexample: the matched output entries do NOT appear in
lexicographic order of (left chunk id, left offset, right chunk id, right
offset). With one left chunk [1, 2] and two right chunks [1] and [2] under
an inner not-equals join, the output is
[((0,1),(0,0)), ((0,0),(1,0))]: the entry with left offset 1 precedes the
entry with left offset 0 because the right-chunk loop is outside the
offset loops. -/
theorem join_output_order_counterexample :
    ¬ ((joinPosLists JoinMode.inner PredicateCondition.notEquals joinLeftCE
        joinRightCE).filter matchedEntry).Pairwise
      (fun p q => lex4Le (claimedKey p) (claimedKey q)) := by
  decide

/-- C4 amended: matched rows appear in lexicographic order of (left chunk
id, RIGHT CHUNK ID, left offset, right offset) — the right-chunk loop is
outside the per-segment offset loops — every unmatched-left padding row
follows all matched rows of its left chunk, and unmatched-right rows
(full-outer only) follow all other rows. For mode Right, the order is
stated on the swapped (executed) orientation of the position lists. -/
theorem join_output_order (mode : JoinMode) (cond : PredicateCondition)
    (leftIn rightIn : List JoinChunk)
    (hszL : (joinLeftInput mode leftIn rightIn).length ≤ 4294967295)
    (hszR : (joinRightInput mode leftIn rightIn).length ≤ 4294967295) :
    ((joinPosLists mode cond leftIn rightIn).filter matchedEntry).Pairwise
      (fun p q => lex4Lt (actualKey p) (actualKey q)) ∧
    (joinPosLists mode cond leftIn rightIn).Pairwise
      (fun p q => ¬(p.2 = NULL_ROW_ID ∧ p.1 ≠ NULL_ROW_ID ∧ matchedEntry q = true ∧
        p.1.chunkId = q.1.chunkId)) ∧
    (joinPosLists mode cond leftIn rightIn).Pairwise
      (fun p q => ¬(p.1 = NULL_ROW_ID ∧ q.1 ≠ NULL_ROW_ID)) := by
  refine ⟨?_, join_pairwise_leftPad mode cond leftIn rightIn hszR,
    join_pairwise_rightPadLast mode cond leftIn rightIn hszL⟩
  have hsub : List.Sublist ((joinPosLists mode cond leftIn rightIn).filter matchedEntry)
      (joinPosLists mode cond leftIn rightIn) := List.filter_sublist _
  have h := List.Pairwise.sublist hsub (join_pairwise_matchKey mode cond leftIn rightIn)
  apply List.Pairwise.imp_of_mem ?_ h
  intro a b ha hb hab
  exact hab (List.of_mem_filter ha) (List.of_mem_filter hb)

/-- Witness for the amended C4 at the same concrete inputs as the
counterexample. -/
theorem join_output_order_witness :
    ((joinPosLists JoinMode.inner PredicateCondition.notEquals joinLeftCE
        joinRightCE).filter matchedEntry).Pairwise
      (fun p q => lex4Lt (actualKey p) (actualKey q)) ∧
    (joinPosLists JoinMode.inner PredicateCondition.notEquals joinLeftCE
        joinRightCE).Pairwise
      (fun p q => ¬(p.2 = NULL_ROW_ID ∧ p.1 ≠ NULL_ROW_ID ∧ matchedEntry q = true ∧
        p.1.chunkId = q.1.chunkId)) ∧
    (joinPosLists JoinMode.inner PredicateCondition.notEquals joinLeftCE
        joinRightCE).Pairwise
      (fun p q => ¬(p.1 = NULL_ROW_ID ∧ q.1 ≠ NULL_ROW_ID)) :=
  join_output_order JoinMode.inner PredicateCondition.notEquals joinLeftCE joinRightCE
    (by decide) (by decide)

/-! ## Claim C5 -/

/-- C5: after all right chunks have been scanned for a left chunk, a pair
(left row, NULL_ROW_ID) is appended for every unmatched left offset exactly
when is_outer_join holds — mode Left or Outer, plus mode Right, which was
normalized beforehand by swapping the inputs and flipping the predicate
condition (joinLeftInput/joinRightInput/joinCondition below perform exactly
that normalization); for all other modes no such pair is ever appended. -/
theorem join_left_padding_iff (mode : JoinMode) (cond : PredicateCondition)
    (leftIn rightIn : List JoinChunk)
    (hszR : (joinRightInput mode leftIn rightIn).length ≤ 4294967295)
    (i lo : Nat) :
    ((RowID.mk i lo, NULL_ROW_ID) ∈ joinPosLists mode cond leftIn rightIn) ↔
      (isOuterJoinMode mode = true ∧
       i < (joinLeftInput mode leftIn rightIn).length ∧
       lo < ((joinLeftInput mode leftIn rightIn).getD i []).length ∧
       leftOffsetMatched (joinCondition mode cond)
         ((joinLeftInput mode leftIn rightIn).getD i [])
         (joinRightInput mode leftIn rightIn) lo = false) := by
  unfold joinPosLists
  rw [List.mem_append, List.mem_flatMap]
  constructor
  · rintro (⟨k, hk, hq⟩ | hq)
    · rw [List.mem_range] at hk
      unfold joinChunkRows at hq
      by_cases houter : isOuterJoinMode mode = true
      · rw [if_pos houter, List.mem_append] at hq
        rcases hq with hq | hq
        · exfalso
          obtain ⟨-, -, hjlt, -⟩ := mem_joinMatchedRows _ _ _ k _ hq
          have hj2 : NULL_ROW_ID.chunkId <
              (joinRightInput mode leftIn rightIn).length := hjlt
          have hc : NULL_ROW_ID.chunkId = 4294967295 := rfl
          omega
        · rw [mem_leftPadRows] at hq
          obtain ⟨lo2, hlo2, hm2, heq⟩ := hq
          have h1 : i = k := congrArg (fun p : RowID × RowID => p.1.chunkId) heq
          have h2 : lo = lo2 := congrArg (fun p : RowID × RowID => p.1.chunkOffset) heq
          subst h1
          subst h2
          exact ⟨houter, hk, hlo2, hm2⟩
      · rw [if_neg houter] at hq
        exfalso
        obtain ⟨-, -, hjlt, -⟩ := mem_joinMatchedRows _ _ _ k _ hq
        have hj2 : NULL_ROW_ID.chunkId <
            (joinRightInput mode leftIn rightIn).length := hjlt
        have hc : NULL_ROW_ID.chunkId = 4294967295 := rfl
        omega
    · exfalso
      obtain ⟨-, hjlt⟩ := mem_joinRightPadRows _ _ _ _ _ hq
      have hj2 : NULL_ROW_ID.chunkId <
          (joinRightInput mode leftIn rightIn).length := hjlt
      have hc : NULL_ROW_ID.chunkId = 4294967295 := rfl
      omega
  · rintro ⟨houter, hi, hlo, hm⟩
    left
    refine ⟨i, List.mem_range.mpr hi, ?_⟩
    unfold joinChunkRows
    rw [if_pos houter, List.mem_append]
    right
    rw [mem_leftPadRows]
    exact ⟨lo, hlo, hm, rfl⟩

/-- Witness for C5: in a Left join of [1, 2, NULL] with [2, 3] on equality,
the unmatched left offset 0 appears NULL-padded in the output. -/
theorem join_left_padding_witness :
    (RowID.mk 0 0, NULL_ROW_ID) ∈ joinPosLists JoinMode.left PredicateCondition.equals
      [[some 1, some 2, none]] [[some 2, some 3]] :=
  (join_left_padding_iff JoinMode.left PredicateCondition.equals
    [[some 1, some 2, none]] [[some 2, some 3]] (by decide) 0 0).mpr
    ⟨by decide, by decide, by decide, by decide⟩

end HyriseModel
